import Mathlib

/-!
Verification of the avatar-injection and color-settings scripts of the
`revrsefr/thelounge` customization repository.

The development shallowly embeds the two source files:

* `src/data/js/avatars.js` — the avatar cache / fetch-queue / DOM-injection
  subsystem.  Its mutable module state (`cache`, `queue`, `activeCount`, the
  chat DOM) becomes an explicit `AvState`; the asynchronous fetch machinery
  becomes a step relation in which a dispatched request sits in an `inflight`
  list (its length is the JavaScript `activeCount`) until a nondeterministic
  completion step resolves it.

* the color-settings script — `DEFAULTS`, `load`/`save`, the
  `IRC4FUN_COLORS` tag block embedded in the custom-CSS field
  (`parseTagFromCSS` / `buildSyncCSS`), the reset handler and the hex text
  input handler.  JavaScript strings are embedded as `List Char`.

`JSON.stringify` / `JSON.parse` are platform builtins, not repository code;
they are modelled here by an executable serializer and parser for the flat
object sublanguage the scripts actually store (string and boolean values).
Inputs outside that sublanguage are modelled as parse failures, which the
scripts treat the same way as the real code treats them (fall back to
defaults).
-/

namespace TL

/-- A JavaScript string, embedded as its list of UTF-16-ish characters. -/
abbrev Str := List Char

/-- Characters of a Lean string literal, used to write embedded constants. -/
def strOf (s : String) : Str := s.data

/-- JavaScript `String.prototype.toLowerCase`, restricted to the ASCII range
that all strings in this development use. -/
def toLowerStr (s : Str) : Str := s.map Char.toLower

/-- First-match association-list lookup: the semantics of reading a property
of a plain JavaScript object whose keys are kept unique. -/
def alookup (k : Str) : List (Str × α) → Option α
  | [] => none
  | (k2, v) :: r => if k2 = k then some v else alookup k r

/-- Property write `obj[k] = v`, modelled so that `alookup` sees the new
value and all other keys are unchanged. -/
def aset (k : Str) (v : α) (l : List (Str × α)) : List (Str × α) :=
  (k, v) :: l.filter (fun p => decide (p.1 ≠ k))

/-- Property removal `delete obj[k]`. -/
def aerase (k : Str) (l : List (Str × α)) : List (Str × α) :=
  l.filter (fun p => decide (p.1 ≠ k))

/- ── avatars.js: configuration constants ───────────────────────────── -/

/-- `MAX_CONCURRENT` from avatars.js. -/
def MAX_CONCURRENT : Nat := 3

/-- `NEGATIVE_TTL` from avatars.js: 5 minutes in milliseconds. -/
def NEGATIVE_TTL : Nat := 5 * 60 * 1000

/-- `SERVICE_NICKS` from avatars.js. -/
def SERVICE_NICKS : List Str :=
  [strOf "chanserv", strOf "nickserv", strOf "memoserv", strOf "operserv",
   strOf "hostserv", strOf "botserv", strOf "saslserv", strOf "global",
   strOf "helpserv", strOf "statserv", strOf "alis", strOf "gameserv",
   strOf "groupserv", strOf "infoserv", strOf "reportserv"]

/-- `isServiceNick` from avatars.js: membership of the lowercased nick in
the service set. -/
def isServiceNick (nick : Str) : Bool :=
  SERVICE_NICKS.contains (toLowerStr nick)

/- ── avatars.js: data model ─────────────────────────────────────────── -/

/-- A cache entry `{ url: string|null, ts: number }`. -/
structure CacheEntry where
  url : Option Str
  ts : Nat
deriving DecidableEq, Repr

/-- The DOM context classification computed by `getContext`. -/
inductive Ctx where
  | nicklist
  | msg
  | whois
  | other
deriving DecidableEq, Repr

/-- An injected `.tl-avatar` element: its `data-nick` attribute and the
image URL it was created with. -/
structure Avatar where
  nick : Str
  url : Str
deriving DecidableEq, Repr

/-- A `.user` name element together with its injection target.  `nick` is
the `data-name` attribute (absent or empty for elements the scanner skips),
`ctx` the context `getContext` computes from the DOM ancestry, and
`avatars` the `.tl-avatar` children of the element's injection target in
document order (`querySelector` reads the head). -/
structure El where
  nick : Option Str
  ctx : Ctx
  avatars : List Avatar
deriving DecidableEq, Repr

/-- A queue item `{ nick, key }` from avatars.js. -/
structure QItem where
  nick : Str
  key : Str
deriving DecidableEq, Repr

/-- The mutable module state of avatars.js.  `inflight` lists the dispatched
but uncompleted fetches; its length is the JavaScript `activeCount`. -/
structure AvState where
  cache : List (Str × CacheEntry)
  queue : List QItem
  inflight : List QItem
  els : List El
deriving DecidableEq, Repr

/- ── avatars.js: operations ─────────────────────────────────────────── -/

/-- The `while` loop of `drainQueue`: shift queue items into dispatched
fetches while fewer than `MAX_CONCURRENT` are active.  Returns the final
(queue, inflight) pair. -/
def drainAux : List QItem → List QItem → List QItem × List QItem
  | [], f => ([], f)
  | i :: r, f =>
    if f.length < MAX_CONCURRENT then drainAux r (f ++ [i]) else (i :: r, f)

/-- `drainQueue` from avatars.js. -/
def drainQueue (st : AvState) : AvState :=
  { st with queue := (drainAux st.queue st.inflight).1,
            inflight := (drainAux st.queue st.inflight).2 }

/-- `enqueue` from avatars.js: skip cached keys and keys already queued,
otherwise push and drain. -/
def enqueue (st : AvState) (nick : Str) : AvState :=
  if (alookup (toLowerStr nick) st.cache).isSome then st
  else if st.queue.any (fun it => decide (it.key = toLowerStr nick)) then st
  else drainQueue { st with queue := st.queue ++ [⟨nick, toLowerStr nick⟩] }

/-- `injectAvatar` from avatars.js, acting on one element's injection
target: untouchable contexts are skipped, a correct avatar is kept, a stale
one is removed, and the new avatar is inserted before the first child. -/
def injectAvatarEl (el : El) (nick url : Str) : El :=
  if el.ctx = Ctx.other then el
  else
    match el.avatars.head? with
    | some a =>
      if a.nick = nick then el
      else { el with avatars := ⟨nick, url⟩ :: el.avatars.tail }
    | none => { el with avatars := [⟨nick, url⟩] }

/-- `injectAllForNick` from avatars.js: inject into every element whose
`data-name` attribute equals `nick` exactly. -/
def injectAllForNick (els : List El) (nick url : Str) : List El :=
  els.map (fun el => if el.nick = some nick then injectAvatarEl el nick url else el)

/-- The possible resolutions of one `fetch` in `doFetch`. -/
inductive FetchOutcome where
  | ok (avatarUrl : Option Str)
  | httpError
  | jsonError
  | netError
deriving DecidableEq, Repr

/-- The avatar URL `doFetch` extracts from a resolution: a non-OK response
yields `null` data, the truthiness test `(data && data.avatar_url)`
coerces a falsy URL — in particular the empty string — to `null`, a
`/static/`-prefixed URL is discarded, and rejected promises carry no
URL. -/
def resolvedUrl : FetchOutcome → Option Str
  | .ok (some u) =>
    if u = [] then none
    else if (strOf "/static/").isPrefixOf u then none
    else some u
  | .ok none => none
  | .httpError => none
  | .jsonError => none
  | .netError => none

/-- The completion callbacks of `doFetch` up to but excluding the final
`drainQueue`: write the cache entry stamped `now`, inject on a positive
result, and decrement the active count by retiring the request. -/
def settleOutcome (st : AvState) (req : QItem) (outcome : FetchOutcome) (now : Nat) :
    AvState :=
  match resolvedUrl outcome with
  | some u =>
    { st with cache := aset req.key ⟨some u, now⟩ st.cache,
              inflight := st.inflight.erase req,
              els := injectAllForNick st.els req.nick u }
  | none =>
    { st with cache := aset req.key ⟨none, now⟩ st.cache,
              inflight := st.inflight.erase req }

/-- The full effect of one request completing (success or failure):
settle the outcome, then `drainQueue` (the `finally` callback). -/
def completeFetch (st : AvState) (req : QItem) (outcome : FetchOutcome) (now : Nat) :
    AvState :=
  drainQueue (settleOutcome st req outcome now)

/-- The cache / stale-avatar logic of `processUserElement` after the
guards, reading element `i` of the state (whose stale avatar, if any, has
already been handled).  The positive-hit test `if (cached.url)` is a JS
truthiness test, so an entry holding the empty string falls through to
the negative-entry timing logic. -/
def procCached (st : AvState) (now : Nat) (i : Nat) (nick key : Str) : AvState :=
  match alookup key st.cache with
  | some ⟨some u, ts⟩ =>
    if u = [] then
      if now - ts < NEGATIVE_TTL then st
      else enqueue { st with cache := aerase key st.cache } nick
    else
      { st with els :=
          match st.els[i]? with
          | some el => st.els.set i (injectAvatarEl el nick u)
          | none => st.els }
  | some ⟨none, ts⟩ =>
    if now - ts < NEGATIVE_TTL then st
    else enqueue { st with cache := aerase key st.cache } nick
  | none => enqueue st nick

/-- `processUserElement` from avatars.js, acting on element `i` at time
`now`: skip absent/empty names, service nicks and untouchable contexts;
keep a correct existing avatar; remove a stale one; then dispatch on the
cache. -/
def processUserElement (st : AvState) (now : Nat) (i : Nat) : AvState :=
  match st.els[i]? with
  | none => st
  | some el =>
    match el.nick with
    | none => st
    | some nick =>
      if nick = [] then st
      else if isServiceNick nick then st
      else if el.ctx = Ctx.other then st
      else
        match el.avatars.head? with
        | some a =>
          if a.nick = nick then st
          else
            procCached { st with els := st.els.set i { el with avatars := el.avatars.tail } }
              now i nick (toLowerStr nick)
        | none => procCached st now i nick (toLowerStr nick)

/-- The loop body of `scanAll` over a fixed index list. -/
def scanGo : AvState → Nat → List Nat → AvState
  | st, _, [] => st
  | st, now, i :: r => scanGo (processUserElement st now i) now r

/-- `scanAll` from avatars.js: process every matched element in document
order (the node list snapshot is the index range). -/
def scanAll (st : AvState) (now : Nat) : AvState :=
  scanGo st now (List.range st.els.length)

/-- One event of the single-threaded avatar subsystem: a scan, the
completion of an in-flight request in arbitrary order, or a DOM mutation
performed by the host application (render a fresh element, remove one, or
recycle one keeping its children). -/
inductive AvStep : AvState → AvState → Prop where
  | scan (st : AvState) (now : Nat) : AvStep st (scanAll st now)
  | complete (st : AvState) (req : QItem) (outcome : FetchOutcome) (now : Nat)
      (h : req ∈ st.inflight) : AvStep st (completeFetch st req outcome now)
  | addEl (st : AvState) (nick : Option Str) (ctx : Ctx) :
      AvStep st { st with els := st.els ++ [⟨nick, ctx, []⟩] }
  | removeEl (st : AvState) (i : Nat) :
      AvStep st { st with els := st.els.eraseIdx i }
  | recycleEl (st : AvState) (i : Nat) (el : El) (hlen : i < st.els.length)
      (hav : el.avatars = (st.els.get ⟨i, hlen⟩).avatars) :
      AvStep st { st with els := st.els.set i el }

/-- The state at script start: empty cache, queue and in-flight list, no
rendered elements. -/
def initState : AvState := ⟨[], [], [], []⟩

/-- States the avatar subsystem can reach from script start. -/
inductive Reachable : AvState → Prop where
  | init : Reachable initState
  | step {s t : AvState} : Reachable s → AvStep s t → Reachable t

/-- Keys currently sitting in the fetch queue. -/
def queueKeys (st : AvState) : List Str := st.queue.map QItem.key

/-- Number of pending lookup requests (queued or in flight) for key `k`. -/
def reqCount (k : Str) (st : AvState) : Nat :=
  st.queue.countP (fun it => decide (it.key = k)) +
    st.inflight.countP (fun it => decide (it.key = k))

/-- Whether `processUserElement` on this element would reach the cache
dispatch for key `k`: a usable nick mapping to `k`, an injectable context,
and no already-correct avatar. -/
def elTriggers (el : El) (k : Str) : Bool :=
  match el.nick with
  | none => false
  | some n =>
    decide (n ≠ []) && !isServiceNick n && decide (el.ctx ≠ Ctx.other) &&
      decide (toLowerStr n = k) &&
      (match el.avatars.head? with
       | some a => decide (a.nick ≠ n)
       | none => true)

/-- Number of elements among indices `is` that would trigger a cache
dispatch for key `k`. -/
def triggerCount (st : AvState) (k : Str) (is : List Nat) : Nat :=
  is.countP (fun i =>
    match st.els[i]? with
    | some el => elTriggers el k
    | none => false)

/-- The scan status of an element for key `k`: whether processing it would
reach the cache dispatch for `k`. -/
def elStatus (st : AvState) (k : Str) (j : Nat) : Bool :=
  match st.els[j]? with
  | some el => elTriggers el k
  | none => false

/- ── Color settings script: JSON values ─────────────────────────────── -/

/-- A JSON value of the flat sublanguage the settings script stores:
booleans (toggles) and strings (colors). -/
inductive JVal where
  | jb (b : Bool)
  | js (s : Str)
deriving DecidableEq, Repr

/-- Escaping of one character inside a JSON string literal, as
`JSON.stringify` performs it for the character range used here. -/
def escChar (c : Char) : Str :=
  if c = '"' then ['\\', '"']
  else if c = '\\' then ['\\', '\\']
  else [c]

/-- Body of a serialized JSON string literal. -/
def escStr : Str → Str
  | [] => []
  | c :: r => escChar c ++ escStr r

/-- A serialized JSON string literal with its quotes. -/
def encStr (s : Str) : Str := '"' :: escStr s ++ ['"']

/-- A serialized JSON value. -/
def encVal : JVal → Str
  | .jb true => strOf "true"
  | .jb false => strOf "false"
  | .js s => encStr s

/-- One serialized `"key":value` member. -/
def encPair (p : Str × JVal) : Str := encStr p.1 ++ ':' :: encVal p.2

/-- The comma-separated member list of a serialized object. -/
def encBody : List (Str × JVal) → Str
  | [] => []
  | [p] => encPair p
  | p :: r => encPair p ++ ',' :: encBody r

/-- `JSON.stringify` on a settings object: keys in insertion order, no
whitespace. -/
def encObj (ps : List (Str × JVal)) : Str := '{' :: encBody ps ++ ['}']

/-- Unescaping of one escape character after a backslash. -/
def unescChar (c : Char) : Option Char :=
  if c = '"' then some '"'
  else if c = '\\' then some '\\'
  else if c = '/' then some '/'
  else if c = 'n' then some '\n'
  else if c = 't' then some '\t'
  else if c = 'r' then some '\r'
  else if c = 'b' then some '\x08'
  else if c = 'f' then some '\x0c'
  else none

/-- Parse the remainder of a JSON string literal whose opening quote has
been consumed; returns the decoded string and the rest of the input. -/
def parseStrGo : List Char → Option (Str × List Char)
  | [] => none
  | c :: r =>
    if c = '"' then some ([], r)
    else if c = '\\' then
      match r with
      | [] => none
      | e :: r2 =>
        match unescChar e with
        | some u => (parseStrGo r2).map (fun p => (u :: p.1, p.2))
        | none => none
    else (parseStrGo r).map (fun p => (c :: p.1, p.2))

/-- Parse one JSON value of the modelled sublanguage. -/
def parseVal : List Char → Option (JVal × List Char)
  | 't' :: 'r' :: 'u' :: 'e' :: r => some (.jb true, r)
  | 'f' :: 'a' :: 'l' :: 's' :: 'e' :: r => some (.jb false, r)
  | '"' :: r => (parseStrGo r).map (fun p => (.js p.1, p.2))
  | _ => none

/-- Parse the member list of a nonempty JSON object, consuming the closing
brace.  `fuel` bounds the number of members. -/
def parseMembers : Nat → List Char → Option (List (Str × JVal) × List Char)
  | 0, _ => none
  | fuel + 1, s =>
    match s with
    | [] => none
    | c :: s1 =>
      if c = '"' then
        match parseStrGo s1 with
        | none => none
        | some (k, r1) =>
          match r1 with
          | [] => none
          | c2 :: r2 =>
            if c2 = ':' then
              match parseVal r2 with
              | none => none
              | some (v, r3) =>
                match r3 with
                | [] => none
                | c3 :: r4 =>
                  if c3 = ',' then
                    match parseMembers fuel r4 with
                    | none => none
                    | some (ps, r5) => some ((k, v) :: ps, r5)
                  else if c3 = '}' then some ([(k, v)], r4)
                  else none
            else none
      else none

/-- `JSON.parse` modelled on the whitespace-free flat object sublanguage
produced by the scripts; every other input is a parse failure (which the
callers treat exactly as the real code treats an exception or an unusable
value: fall back to defaults). -/
def parseObj (s : List Char) : Option (List (Str × JVal)) :=
  match s with
  | [] => none
  | c :: r =>
    if c = '{' then
      match r with
      | [] => none
      | c2 :: r2 =>
        if c2 = '}' then if r2 = [] then some [] else none
        else
          match parseMembers (r.length + 1) r with
          | none => none
          | some (ps, rest) => if rest = [] then some ps else none
    else none

/- ── Color settings script: whitespace and the sync tag block ───────── -/

/-- The whitespace class of the regular expressions and `trim`, restricted
to the ASCII range used here. -/
def isWs (c : Char) : Bool :=
  c = ' ' || c = '\t' || c = '\n' || c = '\r' || c = '\x0b' || c = '\x0c'

/-- Drop trailing whitespace. -/
def dropTrailingWs (s : Str) : Str :=
  (s.reverse.dropWhile isWs).reverse

/-- JavaScript `String.prototype.trim`. -/
def trimStr (s : Str) : Str :=
  dropTrailingWs (s.dropWhile isWs)

/-- The `SYNC_TAG` label with its colon, as matched by both regular
expressions. -/
def tagLabel : Str := strOf "IRC4FUN_COLORS:"

/-- Scan for the first `*/`; returns the characters before it and the rest
after it.  This is the lazy `[\s\S]*?\*/` of both regular expressions. -/
def collectClose : List Char → Option (Str × List Char)
  | [] => none
  | c :: r =>
    if c = '*' then
      match r with
      | '/' :: r2 => some ([], r2)
      | _ => (collectClose r).map (fun p => (c :: p.1, p.2))
    else (collectClose r).map (fun p => (c :: p.1, p.2))

/-- Try to match the parse regular expression
`/\*\s*IRC4FUN_COLORS:\s*([\s\S]*?)\s*\*\//` at the head of the input;
returns the captured group and the input after the match. -/
def matchTagAt (s : List Char) : Option (Str × List Char) :=
  match s with
  | c1 :: c2 :: r1 =>
    if c1 = '/' then
      if c2 = '*' then
        if tagLabel.isPrefixOf (r1.dropWhile isWs) then
          match collectClose
              (((r1.dropWhile isWs).drop tagLabel.length).dropWhile isWs) with
          | some (body, rest) => some (dropTrailingWs body, rest)
          | none => none
        else none
      else none
    else none
  | _ => none

/-- Leftmost match of the parse regular expression: try every start
position from the left. -/
def findTag : List Char → Option (Str × List Char)
  | [] => none
  | c :: r =>
    match matchTagAt (c :: r) with
    | some m => some m
    | none => findTag r

/-- `parseTagFromCSS` from the settings script: extract the first tagged
comment block and `JSON.parse` its body (`null` on failure). -/
def parseTagFromCSS (css : Str) : Option (List (Str × JVal)) :=
  match findTag css with
  | some (body, _) => parseObj body
  | none => none

/-- Try to match the strip regular expression
`/\*\s*IRC4FUN_COLORS:[\s\S]*?\*\/\s*` at the head of the input; returns
the input after the match (including the greedy trailing whitespace). -/
def matchStripAt (s : List Char) : Option (List Char) :=
  match s with
  | c1 :: c2 :: r1 =>
    if c1 = '/' then
      if c2 = '*' then
        if tagLabel.isPrefixOf (r1.dropWhile isWs) then
          match collectClose ((r1.dropWhile isWs).drop tagLabel.length) with
          | some (_, rest) => some (rest.dropWhile isWs)
          | none => none
        else none
      else none
    else none
  | _ => none

/-- `String.prototype.replace` with the non-global strip regular
expression and an empty replacement: remove the first match only. -/
def stripTag : List Char → List Char
  | [] => []
  | c :: r =>
    match matchStripAt (c :: r) with
    | some rest => rest
    | none => c :: stripTag r

/-- `buildSyncCSS` from the settings script: strip the first old tag block,
trim, and prepend a fresh tagged block holding the serialized settings. -/
def buildSyncCSS (s : List (Str × JVal)) (existingCSS : Str) : Str :=
  let clean := trimStr (stripTag existingCSS)
  let tag := strOf "/* " ++ strOf "IRC4FUN_COLORS" ++ strOf ": " ++ encObj s ++ strOf " */"
  if clean = [] then tag else tag ++ '\n' :: clean

/-- Number of tagged blocks in a text: repeated leftmost matching, each
search resuming after the previous match, as a global regular expression
would count them. -/
def countTagAux : Nat → List Char → Nat
  | 0, _ => 0
  | fuel + 1, s =>
    match findTag s with
    | none => 0
    | some (_, rest) => 1 + countTagAux fuel rest

/-- Number of tagged `IRC4FUN_COLORS` blocks in a text. -/
def countTagBlocks (s : Str) : Nat := countTagAux s.length s

/- ── Color settings script: defaults, persistence, handlers ─────────── -/

/-- `DEFAULTS` from the settings script, in source order. -/
def DEFAULTS : List (Str × JVal) :=
  [(strOf "coloredNicks", .jb true),
   (strOf "nickBold", .jb false),
   (strOf "timestampColor", .js (strOf "#64748b")),
   (strOf "linkColor", .js (strOf "#5aa5ff")),
   (strOf "joinColor", .js (strOf "#4ade80")),
   (strOf "partColor", .js (strOf "#f87171")),
   (strOf "quitColor", .js (strOf "#f87171")),
   (strOf "actionColor", .js (strOf "#fbbf24")),
   (strOf "noticeColor", .js (strOf "#5aa5ff")),
   (strOf "highlightBg", .js (strOf "#1c2d4a")),
   (strOf "highlightBorder", .js (strOf "#0076f9")),
   (strOf "unreadMarker", .js (strOf "#ef4444")),
   (strOf "dateMarker", .js (strOf "#14b8a6")),
   (strOf "bgColor", .js (strOf "#0f1115")),
   (strOf "windowBg", .js (strOf "#1a1e25")),
   (strOf "sidebarBg", .js (strOf "#0c0e12")),
   (strOf "textColor", .js (strOf "#e4e7eb")),
   (strOf "mutedColor", .js (strOf "#8a94a8")),
   (strOf "inputBg", .js (strOf "#11141a")),
   (strOf "borderColor", .js (strOf "#2a3545")),
   (strOf "accentColor", .js (strOf "#0076f9"))]

/-- Last-occurrence association lookup: the value a key holds after a
JavaScript object iterates its source entries in order (later duplicates
win, as in `Object.assign`). -/
def alookupLast (k : Str) : List (Str × α) → Option α
  | [] => none
  | (k2, v) :: r =>
    match alookupLast k r with
    | some v2 => some v2
    | none => if k2 = k then some v else none

/-- `Object.assign({}, DEFAULTS, saved)`: every default key keeps its
position and takes the saved value when one exists; keys of `saved` not
among the defaults are appended. -/
def assignDefaults (saved : List (Str × JVal)) : List (Str × JVal) :=
  DEFAULTS.map (fun p => (p.1, (alookupLast p.1 saved).getD p.2)) ++
    saved.filter (fun q => decide (¬ DEFAULTS.any (fun p => decide (p.1 = q.1))))

/-- The fallback branch of `load`: `loadFromUserStyles` parses the tag
block out of the live user-styles element when it exists. -/
def loadFromUserStyles (styleCSS : Option Str) : Option (List (Str × JVal)) :=
  match styleCSS with
  | some css => parseTagFromCSS css
  | none => none

/-- `load` from the settings script.  `storage` is the value under the
local-storage key (absent or a raw string); `styleCSS` the content of the
synced style element when present.  A nonempty raw string is parsed (the
surrounding try/catch turns a parse failure into plain defaults);
otherwise the tag block of the style element is consulted; defaults fill
everything else. -/
def load (storage : Option Str) (styleCSS : Option Str) : List (Str × JVal) :=
  match storage with
  | some raw =>
    if raw = [] then
      match loadFromUserStyles styleCSS with
      | some fromServer => assignDefaults fromServer
      | none => assignDefaults []
    else
      match parseObj raw with
      | some saved => assignDefaults saved
      | none => assignDefaults []
  | none =>
    match loadFromUserStyles styleCSS with
    | some fromServer => assignDefaults fromServer
    | none => assignDefaults []

/-- The data `load` recovered from the outside world (persisted storage or
the synced style element), before defaults are merged over it. -/
def loadRecovered (storage : Option Str) (styleCSS : Option Str) :
    List (Str × JVal) :=
  match storage with
  | some raw =>
    if raw = [] then (loadFromUserStyles styleCSS).getD []
    else (parseObj raw).getD []
  | none => (loadFromUserStyles styleCSS).getD []

/-- The in-memory settings object, the persisted storage slot, and the
settings snapshot the current style overrides were generated from
(`applyAll` regenerates the override block from the whole object). -/
structure Panel where
  settings : List (Str × JVal)
  storage : Option Str
  applied : List (Str × JVal)
deriving DecidableEq, Repr

/-- Property write on the settings object: an existing key keeps its
position, a new key is appended, as JavaScript assignment does. -/
def asetKeep (k : Str) (v : JVal) (l : List (Str × JVal)) : List (Str × JVal) :=
  if l.any (fun p => decide (p.1 = k)) then
    l.map (fun p => if p.1 = k then (k, v) else p)
  else l ++ [(k, v)]

/-- The strict pattern of the hex text input, `^#[0-9a-fA-F]{6}$`. -/
def matchesHexPattern (s : Str) : Bool :=
  match s with
  | '#' :: digits =>
    digits.length = 6 && digits.all (fun c =>
      ('0' ≤ c && c ≤ '9') || ('a' ≤ c && c ≤ 'f') || ('A' ≤ c && c ≤ 'F'))
  | _ => false

/-- Coercion of a stored setting value back to the text shown in the hex
field when the input reverts. -/
def jvalDisplay : JVal → Str
  | .js s => s
  | .jb true => strOf "true"
  | .jb false => strOf "false"

/-- The `change` listener of a hex text input for setting `key`: trim, test
the strict pattern, and either write through (update, persist, re-apply)
or revert the field to the stored value.  Returns the new panel state and
the text the field displays afterwards. -/
def hexChangeHandler (p : Panel) (key : Str) (input : Str) : Panel × Str :=
  if matchesHexPattern (trimStr input) then
    (⟨asetKeep key (.js (trimStr input)) p.settings,
      some (encObj (asetKeep key (.js (trimStr input)) p.settings)),
      asetKeep key (.js (trimStr input)) p.settings⟩, input)
  else
    (p, jvalDisplay ((alookupLast key p.settings).getD (.js [])))

/-- The `click` handler of the Reset to Defaults button: replace the
settings with a copy of the defaults, persist, re-apply. -/
def resetHandler (_p : Panel) : Panel :=
  ⟨DEFAULTS, some (encObj DEFAULTS), DEFAULTS⟩

/-- Whether a stored value avoids the `*` character (booleans trivially
do; hex colors always do). -/
def jvalNoStar : JVal → Bool
  | .jb _ => true
  | .js s => decide ('*' ∉ s)

/-- Well-formedness used by the sync round-trip: no key or string value of
the settings object contains a `*` (hex color values and the documented
keys never do), so the serialized JSON cannot contain the comment-closing
sequence. -/
def settingsNoStar (ps : List (Str × JVal)) : Prop :=
  ∀ p ∈ ps, ('*' ∉ p.1) ∧ jvalNoStar p.2 = true

/- ── Invariants of the avatar subsystem ─────────────────────────────── -/

/-- No pending request and no injected avatar concerns a service nick. -/
def serviceFree (st : AvState) : Prop :=
  (∀ it ∈ st.queue, isServiceNick it.nick = false) ∧
  (∀ it ∈ st.inflight, isServiceNick it.nick = false) ∧
  (∀ el ∈ st.els, ∀ a ∈ el.avatars, isServiceNick a.nick = false)

/-- Every injection target holds at most one avatar element. -/
def atMostOneAvatar (st : AvState) : Prop :=
  ∀ el ∈ st.els, el.avatars.length ≤ 1

/- ── Concrete executions used as counterexamples ────────────────────── -/

/-- Trace A: a lone `kk` element is scanned while nothing is cached. -/
def trA1 : AvState :=
  { initState with els := initState.els ++ [⟨some (strOf "kk"), Ctx.nicklist, []⟩] }

/-- Trace A: the element `aa` is rendered. -/
def trA2 : AvState := { trA1 with els := trA1.els ++ [⟨some (strOf "aa"), Ctx.nicklist, []⟩] }

/-- Trace A: the element `bb` is rendered. -/
def trA3 : AvState := { trA2 with els := trA2.els ++ [⟨some (strOf "bb"), Ctx.nicklist, []⟩] }

/-- Trace A: the first scan dispatches the three fetches. -/
def trA4 : AvState := scanAll trA3 0

/-- Trace A: the host removes the three rendered elements. -/
def trA5 : AvState := { trA4 with els := trA4.els.eraseIdx 0 }

/-- Trace A: second removal. -/
def trA6 : AvState := { trA5 with els := trA5.els.eraseIdx 0 }

/-- Trace A: third removal. -/
def trA7 : AvState := { trA6 with els := trA6.els.eraseIdx 0 }

/-- Trace A: the host renders an `xx` element. -/
def trA8 : AvState := { trA7 with els := trA7.els ++ [⟨some (strOf "xx"), Ctx.nicklist, []⟩] }

/-- Trace A: the host renders a fresh `kk` element. -/
def trA9 : AvState := { trA8 with els := trA8.els ++ [⟨some (strOf "kk"), Ctx.nicklist, []⟩] }

/-- Trace A: a scan at full concurrency queues `xx` and then `kk` behind
it (the `kk` fetch is still in flight, so `kk` is neither cached nor
queued). -/
def trA10 : AvState := scanAll trA9 5

/-- Trace A: the in-flight `kk` fetch fails; its completion caches the
negative entry and the drain refills the free slot with `xx`, leaving the
queued `kk` behind a cache entry for `kk`. -/
def trA11 : AvState := completeFetch trA10 ⟨strOf "kk", strOf "kk"⟩ FetchOutcome.netError 6

/-- Trace B: a lone `bob` element, scanned once (dispatching a fetch). -/
def trB1 : AvState :=
  { initState with els := initState.els ++ [⟨some (strOf "bob"), Ctx.nicklist, []⟩] }

/-- Trace B: first scan. -/
def trB2 : AvState := scanAll trB1 0

/-- Trace B: a second scan while the fetch is still in flight dispatches a
second fetch for the same nickname. -/
def trB3 : AvState := scanAll trB2 1

/-- Trace C: a lone `bob` element. -/
def trC1 : AvState :=
  { initState with els := initState.els ++ [⟨some (strOf "bob"), Ctx.nicklist, []⟩] }

/-- Trace C: first scan dispatches the fetch. -/
def trC2 : AvState := scanAll trC1 0

/-- Trace C: the fetch fails at time 0, caching a negative entry. -/
def trC3 : AvState := completeFetch trC2 ⟨strOf "bob", strOf "bob"⟩ FetchOutcome.netError 0

/-- Trace C: the host renders a second element for the same nickname. -/
def trC4 : AvState := { trC3 with els := trC3.els ++ [⟨some (strOf "bob"), Ctx.msg, []⟩] }

/-- A single rendered `ChanServ` element. -/
def trD1 : AvState :=
  { initState with els := initState.els ++ [⟨some (strOf "ChanServ"), Ctx.nicklist, []⟩] }

/-- A single rendered `alice` element. -/
def trD2 : AvState :=
  { initState with els := initState.els ++ [⟨some (strOf "alice"), Ctx.nicklist, []⟩] }

/- ── Association list lemmas ────────────────────────────────────────── -/

theorem alookup_aset_self (k : Str) (v : α) (l : List (Str × α)) :
    alookup k (aset k v l) = some v := by
  simp [aset, alookup]

theorem alookup_aerase_ne (k k2 : Str) (l : List (Str × α)) (h : k2 ≠ k) :
    alookup k2 (aerase k l) = alookup k2 l := by
  induction l with
  | nil => rfl
  | cons p r ih =>
    obtain ⟨a, b⟩ := p
    by_cases hp : a = k
    · subst hp
      have hne : ¬ a = k2 := fun he => h he.symm
      simp [aerase, List.filter, alookup, hne] at ih ⊢
      exact ih
    · by_cases h2 : a = k2
      · subst h2
        simp [aerase, List.filter, alookup, hp]
      · simp [aerase, List.filter, alookup, hp, h2] at ih ⊢
        exact ih

theorem alookup_aset_ne (k k2 : Str) (v : α) (l : List (Str × α)) (h : k2 ≠ k) :
    alookup k2 (aset k v l) = alookup k2 l := by
  have h1 : alookup k2 (aset k v l) = alookup k2 (aerase k l) := by
    show (if k = k2 then some v else alookup k2 (aerase k l)) = alookup k2 (aerase k l)
    rw [if_neg (fun he : k = k2 => h he.symm)]
  rw [h1, alookup_aerase_ne k k2 l h]

theorem alookup_aerase_self (k : Str) (l : List (Str × α)) :
    alookup k (aerase k l) = none := by
  induction l with
  | nil => rfl
  | cons p r ih =>
    obtain ⟨a, b⟩ := p
    by_cases hp : a = k
    · simpa [aerase, List.filter, hp] using ih
    · simpa [aerase, List.filter, alookup, hp] using ih

theorem alookup_aerase_none (k k2 : Str) (l : List (Str × α))
    (h : alookup k2 l = none) : alookup k2 (aerase k l) = none := by
  by_cases he : k2 = k
  · subst he; exact alookup_aerase_self k2 l
  · rw [alookup_aerase_ne k k2 l he]; exact h

/- ── drainAux lemmas ────────────────────────────────────────────────── -/

theorem drainAux_queue_drop (q f : List QItem) :
    ∃ n, (drainAux q f).1 = q.drop n := by
  induction q generalizing f with
  | nil => exact ⟨0, rfl⟩
  | cons i r ih =>
    by_cases h : f.length < MAX_CONCURRENT
    · obtain ⟨n, hn⟩ := ih (f ++ [i])
      exact ⟨n + 1, by simpa [drainAux, h] using hn⟩
    · exact ⟨0, by simp [drainAux, h]⟩

theorem drainAux_queue_mem (q f : List QItem) (it : QItem)
    (h : it ∈ (drainAux q f).1) : it ∈ q := by
  obtain ⟨n, hn⟩ := drainAux_queue_drop q f
  rw [hn] at h
  exact List.mem_of_mem_drop h

theorem drainAux_inflight_mem (q f : List QItem) (it : QItem)
    (h : it ∈ (drainAux q f).2) : it ∈ q ∨ it ∈ f := by
  induction q generalizing f with
  | nil => exact Or.inr h
  | cons i r ih =>
    by_cases hlt : f.length < MAX_CONCURRENT
    · simp only [drainAux, if_pos hlt] at h
      rcases ih (f ++ [i]) h with hq | hf
      · exact Or.inl (List.mem_cons_of_mem _ hq)
      · rcases List.mem_append.mp hf with hf1 | hf2
        · exact Or.inr hf1
        · rw [List.mem_singleton] at hf2
          exact Or.inl (hf2 ▸ List.mem_cons_self i r)
    · simp only [drainAux, if_neg hlt] at h
      exact Or.inr h

theorem drainAux_inflight_le (q f : List QItem) (h : f.length ≤ MAX_CONCURRENT) :
    (drainAux q f).2.length ≤ MAX_CONCURRENT := by
  induction q generalizing f with
  | nil => exact h
  | cons i r ih =>
    by_cases hlt : f.length < MAX_CONCURRENT
    · simp only [drainAux, if_pos hlt]
      exact ih (f ++ [i]) (by simpa using hlt)
    · simp only [drainAux, if_neg hlt]
      exact h

theorem drainAux_full (q f : List QItem) (h : MAX_CONCURRENT ≤ f.length) :
    drainAux q f = (q, f) := by
  cases q with
  | nil => rfl
  | cons i r => simp [drainAux, Nat.not_lt.mpr h]

theorem drainAux_countP (p : QItem → Bool) (q f : List QItem) :
    (drainAux q f).1.countP p + (drainAux q f).2.countP p =
      q.countP p + f.countP p := by
  induction q generalizing f with
  | nil => simp [drainAux]
  | cons i r ih =>
    by_cases hlt : f.length < MAX_CONCURRENT
    · simp only [drainAux, if_pos hlt]
      rw [ih (f ++ [i])]
      simp [List.countP_append, List.countP_cons]
      omega
    · simp [drainAux, if_neg hlt]

theorem drainQueue_cache (st : AvState) : (drainQueue st).cache = st.cache := rfl

theorem drainQueue_els (st : AvState) : (drainQueue st).els = st.els := rfl

theorem drainQueue_reqCount (k : Str) (st : AvState) :
    reqCount k (drainQueue st) = reqCount k st := by
  simp only [reqCount, drainQueue]
  exact drainAux_countP _ st.queue st.inflight

/- ── enqueue lemmas ─────────────────────────────────────────────────── -/

theorem enqueue_cache (st : AvState) (nick : Str) :
    (enqueue st nick).cache = st.cache := by
  unfold enqueue
  split
  · rfl
  · split <;> rfl

theorem enqueue_els (st : AvState) (nick : Str) :
    (enqueue st nick).els = st.els := by
  unfold enqueue
  split
  · rfl
  · split <;> rfl

theorem enqueue_noop_cached (st : AvState) (nick : Str)
    (h : (alookup (toLowerStr nick) st.cache).isSome) : enqueue st nick = st := by
  unfold enqueue
  rw [if_pos h]

theorem enqueue_noop_queued (st : AvState) (nick : Str)
    (hc : (alookup (toLowerStr nick) st.cache).isSome = false)
    (h : st.queue.any (fun it => decide (it.key = toLowerStr nick))) :
    enqueue st nick = st := by
  unfold enqueue
  rw [if_neg (by simp [hc]), if_pos h]

theorem enqueue_push (st : AvState) (nick : Str)
    (hc : (alookup (toLowerStr nick) st.cache).isSome = false)
    (hq : st.queue.any (fun it => decide (it.key = toLowerStr nick)) = false) :
    enqueue st nick =
      drainQueue { st with queue := st.queue ++ [⟨nick, toLowerStr nick⟩] } := by
  unfold enqueue
  rw [if_neg (by simp [hc]), if_neg (by simp [hq])]

theorem enqueue_reqCount_ne (st : AvState) (nick k : Str) (h : toLowerStr nick ≠ k) :
    reqCount k (enqueue st nick) = reqCount k st := by
  unfold enqueue
  split
  · rfl
  · split
    · rfl
    · rw [drainQueue_reqCount]
      simp [reqCount, List.countP_append, List.countP_cons, h]

theorem enqueue_reqCount_le (st : AvState) (nick k : Str) :
    reqCount k (enqueue st nick) ≤ reqCount k st + 1 := by
  unfold enqueue
  split
  · exact Nat.le_succ _
  · split
    · exact Nat.le_succ _
    · rw [drainQueue_reqCount]
      simp only [reqCount, List.countP_append, List.countP_cons, List.countP_nil]
      split <;> omega

theorem enqueue_inflight_le (st : AvState) (nick : Str)
    (h : st.inflight.length ≤ MAX_CONCURRENT) :
    (enqueue st nick).inflight.length ≤ MAX_CONCURRENT := by
  unfold enqueue
  split
  · exact h
  · split
    · exact h
    · exact drainAux_inflight_le _ _ h

theorem enqueue_queue_mem (st : AvState) (nick : Str) (it : QItem)
    (h : it ∈ (enqueue st nick).queue) :
    it ∈ st.queue ∨ it = ⟨nick, toLowerStr nick⟩ := by
  unfold enqueue at h
  split at h
  · exact Or.inl h
  · split at h
    · exact Or.inl h
    · have := drainAux_queue_mem _ _ _ h
      rcases List.mem_append.mp this with h1 | h2
      · exact Or.inl h1
      · exact Or.inr (List.mem_singleton.mp h2)

theorem enqueue_inflight_mem (st : AvState) (nick : Str) (it : QItem)
    (h : it ∈ (enqueue st nick).inflight) :
    it ∈ st.inflight ∨ it ∈ st.queue ∨ it = ⟨nick, toLowerStr nick⟩ := by
  unfold enqueue at h
  split at h
  · exact Or.inl h
  · split at h
    · exact Or.inl h
    · rcases drainAux_inflight_mem _ _ _ h with h1 | h2
      · rcases List.mem_append.mp h1 with h3 | h4
        · exact Or.inr (Or.inl h3)
        · exact Or.inr (Or.inr (List.mem_singleton.mp h4))
      · exact Or.inl h2

theorem queueKeys_sublist_drain (st : AvState) :
    List.Sublist (queueKeys (drainQueue st)) (queueKeys st) := by
  obtain ⟨n, hn⟩ := drainAux_queue_drop st.queue st.inflight
  simp only [queueKeys, drainQueue, hn]
  exact (List.drop_sublist n st.queue).map QItem.key

theorem queueKeys_nodup_drain (st : AvState) (h : (queueKeys st).Nodup) :
    (queueKeys (drainQueue st)).Nodup :=
  List.Nodup.sublist (queueKeys_sublist_drain st) h

theorem queueKeys_not_mem_drain (st : AvState) (k : Str) (h : k ∉ queueKeys st) :
    k ∉ queueKeys (drainQueue st) :=
  fun hmem => h ((queueKeys_sublist_drain st).subset hmem)

theorem queueKeys_append_singleton (st : AvState) (it : QItem) :
    queueKeys { st with queue := st.queue ++ [it] } = queueKeys st ++ [it.key] := by
  simp [queueKeys]

theorem enqueue_queueKeys_nodup (st : AvState) (nick : Str)
    (h : (queueKeys st).Nodup) : (queueKeys (enqueue st nick)).Nodup := by
  unfold enqueue
  split
  · exact h
  · split
    · exact h
    · next hq =>
      apply queueKeys_nodup_drain
      have hnotin : toLowerStr nick ∉ queueKeys st := by
        intro hin
        rw [queueKeys, List.mem_map] at hin
        obtain ⟨it, hit, hkey⟩ := hin
        exact hq (List.any_eq_true.mpr ⟨it, hit, by simp [hkey]⟩)
      rw [queueKeys_append_singleton]
      have hiff : ∀ (l : List Str) (a : Str), (l ++ [a]).Nodup ↔ l.Nodup ∧ a ∉ l :=
        fun l a => by simp [List.nodup_append]
      exact (hiff _ _).mpr ⟨h, hnotin⟩

theorem enqueue_queueKeys_not_mem (st : AvState) (nick k : Str)
    (h : k ∉ queueKeys st) (hne : toLowerStr nick ≠ k) :
    k ∉ queueKeys (enqueue st nick) := by
  unfold enqueue
  split
  · exact h
  · split
    · exact h
    · apply queueKeys_not_mem_drain
      rw [queueKeys_append_singleton]
      intro hmem
      rcases List.mem_append.mp hmem with h1 | h2
      · exact h h1
      · exact hne (List.mem_singleton.mp h2).symm

/- ── processUserElement basic shape lemmas ──────────────────────────── -/

theorem procCached_cache_cases (st : AvState) (now : Nat) (i : Nat) (nick key : Str) :
    (procCached st now i nick key).cache = st.cache ∨
      (procCached st now i nick key).cache = aerase key st.cache := by
  unfold procCached
  split
  · split
    · split
      · exact Or.inl rfl
      · rw [enqueue_cache]
        exact Or.inr rfl
    · exact Or.inl rfl
  · split
    · exact Or.inl rfl
    · rw [enqueue_cache]
      exact Or.inr rfl
  · rw [enqueue_cache]
    exact Or.inl rfl

theorem procCached_els_length (st : AvState) (now : Nat) (i : Nat) (nick key : Str) :
    (procCached st now i nick key).els.length = st.els.length := by
  unfold procCached
  split
  · split
    · split
      · rfl
      · rw [enqueue_els]
    · show (match st.els[i]? with
        | some el => st.els.set i (injectAvatarEl el _ _)
        | none => st.els).length = st.els.length
      split <;> simp
  · split
    · rfl
    · rw [enqueue_els]
  · rw [enqueue_els]

theorem processUserElement_els_length (st : AvState) (now : Nat) (i : Nat) :
    (processUserElement st now i).els.length = st.els.length := by
  unfold processUserElement
  split
  · rfl
  · split
    · rfl
    · split
      · rfl
      · split
        · rfl
        · split
          · rfl
          · split
            · split
              · rfl
              · rw [procCached_els_length]
                simp
            · rw [procCached_els_length]

/-- Full case analysis of `procCached`: a truthy (non-empty) cached URL
injects, while both a null and an empty-string URL follow the
negative-entry timing logic. -/
theorem procCached_shape (st : AvState) (now : Nat) (i : Nat) (nick key : Str) :
    (∃ u ts, alookup key st.cache = some ⟨some u, ts⟩ ∧ u ≠ [] ∧
       procCached st now i nick key =
         { st with els :=
             match st.els[i]? with
             | some el => st.els.set i (injectAvatarEl el nick u)
             | none => st.els }) ∨
    (∃ ou ts, alookup key st.cache = some ⟨ou, ts⟩ ∧ (ou = none ∨ ou = some []) ∧
       now - ts < NEGATIVE_TTL ∧ procCached st now i nick key = st) ∨
    (∃ ou ts, alookup key st.cache = some ⟨ou, ts⟩ ∧ (ou = none ∨ ou = some []) ∧
       ¬ (now - ts < NEGATIVE_TTL) ∧
       procCached st now i nick key =
         enqueue { st with cache := aerase key st.cache } nick) ∨
    (alookup key st.cache = none ∧ procCached st now i nick key = enqueue st nick) := by
  unfold procCached
  split
  · next u ts heq =>
    by_cases hu : u = []
    · subst hu
      rw [if_pos rfl]
      by_cases hf : now - ts < NEGATIVE_TTL
      · exact Or.inr (Or.inl ⟨some [], ts, heq, Or.inr rfl, hf, by rw [if_pos hf]⟩)
      · exact Or.inr (Or.inr (Or.inl ⟨some [], ts, heq, Or.inr rfl, hf,
          by rw [if_neg hf]⟩))
    · rw [if_neg hu]
      exact Or.inl ⟨u, ts, heq, hu, rfl⟩
  · next ts heq =>
    by_cases hf : now - ts < NEGATIVE_TTL
    · exact Or.inr (Or.inl ⟨none, ts, heq, Or.inl rfl, hf, by rw [if_pos hf]⟩)
    · exact Or.inr (Or.inr (Or.inl ⟨none, ts, heq, Or.inl rfl, hf, by rw [if_neg hf]⟩))
  · next heq => exact Or.inr (Or.inr (Or.inr ⟨heq, rfl⟩))

/-- Full case analysis of `processUserElement`: either one of the guards
returns the state unchanged, or the cache dispatch runs on a state that
differs from the input at most by the removal of a stale avatar at `i`. -/
theorem processUserElement_shape (st : AvState) (now : Nat) (i : Nat) :
    processUserElement st now i = st ∨
    ∃ el nick st1,
      st.els[i]? = some el ∧ el.nick = some nick ∧ nick ≠ [] ∧
      isServiceNick nick = false ∧ el.ctx ≠ Ctx.other ∧
      (st1 = st ∨
        st1 = { st with els := st.els.set i { el with avatars := el.avatars.tail } }) ∧
      st1.cache = st.cache ∧ st1.queue = st.queue ∧ st1.inflight = st.inflight ∧
      processUserElement st now i = procCached st1 now i nick (toLowerStr nick) := by
  unfold processUserElement
  split
  · exact Or.inl rfl
  · next el hel =>
    split
    · exact Or.inl rfl
    · next nick hnick =>
      split
      · exact Or.inl rfl
      · next hne =>
        split
        · exact Or.inl rfl
        · next hsvc =>
          split
          · exact Or.inl rfl
          · next hctx =>
            split
            · next a hhead =>
              split
              · exact Or.inl rfl
              · exact Or.inr ⟨el, nick,
                  { st with els := st.els.set i { el with avatars := el.avatars.tail } },
                  hel, hnick, hne, Bool.not_eq_true _ ▸ (by simpa using hsvc), hctx,
                  Or.inr rfl, rfl, rfl, rfl, rfl⟩
            · exact Or.inr ⟨el, nick, st, hel, hnick, hne,
                Bool.not_eq_true _ ▸ (by simpa using hsvc), hctx, Or.inl rfl,
                rfl, rfl, rfl, rfl⟩

theorem procCached_els_get_ne (st : AvState) (now i nick key) (j : Nat) (h : j ≠ i) :
    (procCached st now i nick key).els[j]? = st.els[j]? := by
  rcases procCached_shape st now i nick key with
    ⟨u, ts, _, _, heq⟩ | ⟨ou, ts, _, _, _, heq⟩ | ⟨ou, ts, _, _, _, heq⟩ | ⟨_, heq⟩
  · rw [heq]
    show (match st.els[i]? with
      | some el => st.els.set i (injectAvatarEl el nick u)
      | none => st.els)[j]? = st.els[j]?
    split
    · exact List.getElem?_set_ne (fun he => h he.symm)
    · rfl
  · rw [heq]
  · rw [heq, enqueue_els]
  · rw [heq, enqueue_els]

theorem processUserElement_els_get_ne (st : AvState) (now i j : Nat) (h : j ≠ i) :
    (processUserElement st now i).els[j]? = st.els[j]? := by
  rcases processUserElement_shape st now i with heq |
    ⟨el, nick, st1, _, _, _, _, _, hst1, _, _, _, heq⟩
  · rw [heq]
  · rw [heq, procCached_els_get_ne _ _ _ _ _ _ h]
    rcases hst1 with h1 | h1
    · rw [h1]
    · rw [h1]
      exact List.getElem?_set_ne (fun he => h he.symm)

/-- Scan steps preserve any property preserved by each element step. -/
theorem scanGo_pres (P : AvState → Prop) (now : Nat)
    (h : ∀ st i, P st → P (processUserElement st now i)) :
    ∀ (is : List Nat) (st : AvState), P st → P (scanGo st now is) := by
  intro is
  induction is with
  | nil => intro st hP; exact hP
  | cons i r ih => intro st hP; exact ih _ (h st i hP)

/- ── Per-element preservation: concurrency bound (C1) ───────────────── -/

theorem processUserElement_inflight_le (st : AvState) (now i : Nat)
    (h : st.inflight.length ≤ MAX_CONCURRENT) :
    (processUserElement st now i).inflight.length ≤ MAX_CONCURRENT := by
  rcases processUserElement_shape st now i with heq |
    ⟨el, nick, st1, _, _, _, _, _, _, _, _, hinf, heq⟩
  · rw [heq]; exact h
  · rw [heq]
    rcases procCached_shape st1 now i nick (toLowerStr nick) with
      ⟨u, ts, _, _, heq2⟩ | ⟨ou, ts, _, _, _, heq2⟩ | ⟨ou, ts, _, _, _, heq2⟩ | ⟨_, heq2⟩
    · rw [heq2]; rw [show ({ st1 with els := _ } : AvState).inflight = st1.inflight from rfl, hinf]; exact h
    · rw [heq2, hinf]; exact h
    · rw [heq2]; exact enqueue_inflight_le _ _ (by rw [show ({ st1 with cache := _ } : AvState).inflight = st1.inflight from rfl, hinf]; exact h)
    · rw [heq2]; exact enqueue_inflight_le _ _ (hinf ▸ h)

/- ── Per-element preservation: queue key uniqueness (C2) ────────────── -/

theorem processUserElement_queueKeys_nodup (st : AvState) (now i : Nat)
    (h : (queueKeys st).Nodup) :
    (queueKeys (processUserElement st now i)).Nodup := by
  rcases processUserElement_shape st now i with heq |
    ⟨el, nick, st1, _, _, _, _, _, _, _, hq, _, heq⟩
  · rw [heq]; exact h
  · rw [heq]
    have h1 : (queueKeys st1).Nodup := by rw [queueKeys, hq]; exact h
    rcases procCached_shape st1 now i nick (toLowerStr nick) with
      ⟨u, ts, _, _, heq2⟩ | ⟨ou, ts, _, _, _, heq2⟩ | ⟨ou, ts, _, _, _, heq2⟩ | ⟨_, heq2⟩
    · rw [heq2]; exact h1
    · rw [heq2]; exact h1
    · rw [heq2]; exact enqueue_queueKeys_nodup _ _ h1
    · rw [heq2]; exact enqueue_queueKeys_nodup _ _ h1

/- ── Per-element preservation: service freedom (C5) ─────────────────── -/

theorem injectAvatarEl_avatars_mem (el : El) (nick url : Str) (a : Avatar)
    (h : a ∈ (injectAvatarEl el nick url).avatars) :
    a ∈ el.avatars ∨ a = ⟨nick, url⟩ := by
  unfold injectAvatarEl at h
  split at h
  · exact Or.inl h
  · split at h
    · split at h
      · exact Or.inl h
      · rcases List.mem_cons.mp h with h1 | h1
        · exact Or.inr h1
        · exact Or.inl (List.mem_of_mem_tail h1)
    · rw [List.mem_singleton] at h
      exact Or.inr h

theorem injectAvatarEl_avatars_le (el : El) (nick url : Str)
    (h : el.avatars.length ≤ 1) :
    (injectAvatarEl el nick url).avatars.length ≤ 1 := by
  unfold injectAvatarEl
  split
  · exact h
  · split
    · split
      · exact h
      · show (Avatar.mk nick url :: el.avatars.tail).length ≤ 1
        have ht := List.length_tail el.avatars
        simp only [List.length_cons]
        omega
    · simp

theorem enqueue_serviceFree (st : AvState) (nick : Str) (h : serviceFree st)
    (hn : isServiceNick nick = false) : serviceFree (enqueue st nick) := by
  obtain ⟨hq, hf, he⟩ := h
  refine ⟨?_, ?_, ?_⟩
  · intro it hit
    rcases enqueue_queue_mem st nick it hit with h1 | h1
    · exact hq it h1
    · rw [h1]; exact hn
  · intro it hit
    rcases enqueue_inflight_mem st nick it hit with h1 | h1 | h1
    · exact hf it h1
    · exact hq it h1
    · rw [h1]; exact hn
  · rw [enqueue_els]
    exact he

theorem processUserElement_serviceFree (st : AvState) (now i : Nat)
    (h : serviceFree st) : serviceFree (processUserElement st now i) := by
  rcases processUserElement_shape st now i with heq |
    ⟨el, nick, st1, hel, hnick, _, hsvc, _, hst1, hcache, hq, hinf, heq⟩
  · rw [heq]; exact h
  · rw [heq]
    obtain ⟨hqs, hfs, hes⟩ := h
    have helmem : el ∈ st.els := List.getElem?_mem hel
    have h1 : serviceFree st1 := by
      refine ⟨by rw [hq]; exact hqs, by rw [hinf]; exact hfs, ?_⟩
      rcases hst1 with h2 | h2
      · rw [h2]; exact hes
      · rw [h2]
        intro el2 hmem a ha
        rcases List.mem_or_eq_of_mem_set hmem with h3 | h3
        · exact hes el2 h3 a ha
        · subst h3
          exact hes el helmem a (List.mem_of_mem_tail ha)
    obtain ⟨h1q, h1f, h1e⟩ := h1
    rcases procCached_shape st1 now i nick (toLowerStr nick) with
      ⟨u, ts, _, _, heq2⟩ | ⟨ou, ts, _, _, _, heq2⟩ | ⟨ou, ts, _, _, _, heq2⟩ | ⟨_, heq2⟩
    · rw [heq2]
      refine ⟨h1q, h1f, ?_⟩
      show ∀ el2 ∈ (match st1.els[i]? with
        | some el2 => st1.els.set i (injectAvatarEl el2 nick u)
        | none => st1.els), ∀ a ∈ el2.avatars, isServiceNick a.nick = false
      split
      · next el2 hel2 =>
        intro el3 hmem a ha
        rcases List.mem_or_eq_of_mem_set hmem with h3 | h3
        · exact h1e el3 h3 a ha
        · subst h3
          rcases injectAvatarEl_avatars_mem el2 nick u a ha with h4 | h4
          · exact h1e el2 (List.getElem?_mem hel2) a h4
          · rw [h4]; exact hsvc
      · exact h1e
    · rw [heq2]; exact ⟨h1q, h1f, h1e⟩
    · rw [heq2]
      exact enqueue_serviceFree _ nick ⟨h1q, h1f, h1e⟩ hsvc
    · rw [heq2]
      exact enqueue_serviceFree _ nick ⟨h1q, h1f, h1e⟩ hsvc

/- ── Per-element preservation: at most one avatar (C6) ──────────────── -/

theorem processUserElement_atMostOne (st : AvState) (now i : Nat)
    (h : atMostOneAvatar st) : atMostOneAvatar (processUserElement st now i) := by
  rcases processUserElement_shape st now i with heq |
    ⟨el, nick, st1, hel, hnick, _, _, _, hst1, _, _, _, heq⟩
  · rw [heq]; exact h
  · rw [heq]
    have helmem : el ∈ st.els := List.getElem?_mem hel
    have h1 : atMostOneAvatar st1 := by
      rcases hst1 with h2 | h2
      · rw [h2]; exact h
      · rw [h2]
        intro el2 hmem
        rcases List.mem_or_eq_of_mem_set hmem with h3 | h3
        · exact h el2 h3
        · subst h3
          show el.avatars.tail.length ≤ 1
          have := h el helmem
          have ht := List.length_tail el.avatars
          omega
    rcases procCached_shape st1 now i nick (toLowerStr nick) with
      ⟨u, ts, _, _, heq2⟩ | ⟨ou, ts, _, _, _, heq2⟩ | ⟨ou, ts, _, _, _, heq2⟩ | ⟨_, heq2⟩
    · rw [heq2]
      show atMostOneAvatar { st1 with els := match st1.els[i]? with
        | some el2 => st1.els.set i (injectAvatarEl el2 nick u)
        | none => st1.els }
      unfold atMostOneAvatar
      split
      · next el2 hel2 =>
        intro el3 hmem
        rcases List.mem_or_eq_of_mem_set hmem with h3 | h3
        · exact h1 el3 h3
        · subst h3
          exact injectAvatarEl_avatars_le el2 nick u (h1 el2 (List.getElem?_mem hel2))
      · exact h1
    · rw [heq2]; exact h1
    · rw [heq2]
      unfold atMostOneAvatar
      rw [enqueue_els]
      exact h1
    · rw [heq2]
      unfold atMostOneAvatar
      rw [enqueue_els]
      exact h1

/- ── settleOutcome and completeFetch lemmas ─────────────────────────── -/

theorem settleOutcome_inflight (st : AvState) (req : QItem) (o : FetchOutcome) (now : Nat) :
    (settleOutcome st req o now).inflight = st.inflight.erase req := by
  unfold settleOutcome
  split <;> rfl

theorem settleOutcome_queue (st : AvState) (req : QItem) (o : FetchOutcome) (now : Nat) :
    (settleOutcome st req o now).queue = st.queue := by
  unfold settleOutcome
  split <;> rfl

theorem settleOutcome_cache (st : AvState) (req : QItem) (o : FetchOutcome) (now : Nat) :
    (settleOutcome st req o now).cache = aset req.key ⟨resolvedUrl o, now⟩ st.cache := by
  unfold settleOutcome
  split <;> next heq => rw [heq]

theorem settleOutcome_els_pos (st : AvState) (req : QItem) (o : FetchOutcome) (now : Nat)
    (u : Str) (h : resolvedUrl o = some u) :
    (settleOutcome st req o now).els = injectAllForNick st.els req.nick u := by
  unfold settleOutcome
  rw [h]

theorem settleOutcome_els_neg (st : AvState) (req : QItem) (o : FetchOutcome) (now : Nat)
    (h : resolvedUrl o = none) :
    (settleOutcome st req o now).els = st.els := by
  unfold settleOutcome
  rw [h]

theorem completeFetch_inflight_le (st : AvState) (req : QItem) (o : FetchOutcome) (now : Nat)
    (h : st.inflight.length ≤ MAX_CONCURRENT) :
    (completeFetch st req o now).inflight.length ≤ MAX_CONCURRENT := by
  unfold completeFetch drainQueue
  apply drainAux_inflight_le
  rw [settleOutcome_inflight]
  exact Nat.le_trans (List.Sublist.length_le (List.erase_sublist req st.inflight)) h

theorem completeFetch_queueKeys_nodup (st : AvState) (req : QItem) (o : FetchOutcome)
    (now : Nat) (h : (queueKeys st).Nodup) :
    (queueKeys (completeFetch st req o now)).Nodup := by
  unfold completeFetch
  apply queueKeys_nodup_drain
  rw [queueKeys, settleOutcome_queue]
  exact h

theorem injectAllForNick_mem (els : List El) (nick url : Str) (el : El)
    (h : el ∈ injectAllForNick els nick url) :
    ∃ el0 ∈ els, el = el0 ∨ el = injectAvatarEl el0 nick url := by
  unfold injectAllForNick at h
  obtain ⟨el0, hel0, heq⟩ := List.mem_map.mp h
  refine ⟨el0, hel0, ?_⟩
  by_cases hc : el0.nick = some nick
  · rw [if_pos hc] at heq
    exact Or.inr heq.symm
  · rw [if_neg hc] at heq
    exact Or.inl heq.symm

theorem drainQueue_serviceFree (st : AvState) (h : serviceFree st) :
    serviceFree (drainQueue st) := by
  obtain ⟨hq, hf, he⟩ := h
  refine ⟨?_, ?_, he⟩
  · intro it hit
    exact hq it (drainAux_queue_mem _ _ _ hit)
  · intro it hit
    rcases drainAux_inflight_mem _ _ _ hit with h1 | h1
    · exact hq it h1
    · exact hf it h1

theorem completeFetch_serviceFree (st : AvState) (req : QItem) (o : FetchOutcome)
    (now : Nat) (h : serviceFree st) (hreq : isServiceNick req.nick = false) :
    serviceFree (completeFetch st req o now) := by
  obtain ⟨hq, hf, he⟩ := h
  unfold completeFetch
  apply drainQueue_serviceFree
  refine ⟨?_, ?_, ?_⟩
  · rw [settleOutcome_queue]
    exact hq
  · rw [settleOutcome_inflight]
    intro it hit
    exact hf it (List.mem_of_mem_erase hit)
  · cases hres : resolvedUrl o with
    | none =>
      rw [settleOutcome_els_neg st req o now hres]
      exact he
    | some u =>
      rw [settleOutcome_els_pos st req o now u hres]
      intro el hmem a ha
      obtain ⟨el0, hel0, hcase⟩ := injectAllForNick_mem st.els req.nick u el hmem
      rcases hcase with h1 | h1
      · exact he el0 hel0 a (h1 ▸ ha)
      · rcases injectAvatarEl_avatars_mem el0 req.nick u a (h1 ▸ ha) with h2 | h2
        · exact he el0 hel0 a h2
        · rw [h2]; exact hreq

theorem completeFetch_atMostOne (st : AvState) (req : QItem) (o : FetchOutcome)
    (now : Nat) (h : atMostOneAvatar st) :
    atMostOneAvatar (completeFetch st req o now) := by
  unfold completeFetch
  show atMostOneAvatar (drainQueue _)
  unfold atMostOneAvatar
  rw [drainQueue_els]
  cases hres : resolvedUrl o with
  | none =>
    rw [settleOutcome_els_neg st req o now hres]
    exact h
  | some u =>
    rw [settleOutcome_els_pos st req o now u hres]
    intro el hmem
    obtain ⟨el0, hel0, hcase⟩ := injectAllForNick_mem st.els req.nick u el hmem
    rcases hcase with h1 | h1
    · exact h1 ▸ h el0 hel0
    · rw [h1]
      exact injectAvatarEl_avatars_le el0 req.nick u (h el0 hel0)

/- ── Invariants of every reachable state ────────────────────────────── -/

theorem reachable_inflight_le (st : AvState) (h : Reachable st) :
    st.inflight.length ≤ MAX_CONCURRENT := by
  induction h with
  | init => decide
  | @step s t hr hstep ih =>
    cases hstep with
    | scan now =>
      exact scanGo_pres (fun s2 => s2.inflight.length ≤ MAX_CONCURRENT) now
        (fun s2 i hs => processUserElement_inflight_le s2 now i hs) _ s ih
    | complete req o now hmem => exact completeFetch_inflight_le s req o now ih
    | addEl nick ctx => exact ih
    | removeEl i => exact ih
    | recycleEl i el hlen hav => exact ih

theorem reachable_queueKeys_nodup (st : AvState) (h : Reachable st) :
    (queueKeys st).Nodup := by
  induction h with
  | init => decide
  | @step s t hr hstep ih =>
    cases hstep with
    | scan now =>
      exact scanGo_pres (fun s2 => (queueKeys s2).Nodup) now
        (fun s2 i hs => processUserElement_queueKeys_nodup s2 now i hs) _ s ih
    | complete req o now hmem => exact completeFetch_queueKeys_nodup s req o now ih
    | addEl nick ctx => exact ih
    | removeEl i => exact ih
    | recycleEl i el hlen hav => exact ih

theorem reachable_serviceFree (st : AvState) (h : Reachable st) : serviceFree st := by
  induction h with
  | init =>
    exact ⟨fun it hit => absurd hit (List.not_mem_nil it),
      fun it hit => absurd hit (List.not_mem_nil it),
      fun el hel => absurd hel (List.not_mem_nil el)⟩
  | @step s t hr hstep ih =>
    cases hstep with
    | scan now =>
      exact scanGo_pres serviceFree now
        (fun s2 i hs => processUserElement_serviceFree s2 now i hs) _ s ih
    | complete req o now hmem =>
      exact completeFetch_serviceFree s req o now ih (ih.2.1 req hmem)
    | addEl nick ctx =>
      obtain ⟨hq, hf, he⟩ := ih
      refine ⟨hq, hf, ?_⟩
      intro el hel a ha
      rcases List.mem_append.mp hel with h1 | h1
      · exact he el h1 a ha
      · rw [List.mem_singleton] at h1
        subst h1
        cases ha
    | removeEl i =>
      obtain ⟨hq, hf, he⟩ := ih
      exact ⟨hq, hf, fun el hel a ha => he el (List.mem_of_mem_eraseIdx hel) a ha⟩
    | recycleEl i el hlen hav =>
      obtain ⟨hq, hf, he⟩ := ih
      refine ⟨hq, hf, ?_⟩
      intro el2 hel2 a ha
      rcases List.mem_or_eq_of_mem_set hel2 with h1 | h1
      · exact he el2 h1 a ha
      · subst h1
        exact he _ (List.get_mem s.els i hlen) a (hav ▸ ha)

theorem reachable_atMostOne (st : AvState) (h : Reachable st) : atMostOneAvatar st := by
  induction h with
  | init => intro el hel; cases hel
  | @step s t hr hstep ih =>
    cases hstep with
    | scan now =>
      exact scanGo_pres atMostOneAvatar now
        (fun s2 i hs => processUserElement_atMostOne s2 now i hs) _ s ih
    | complete req o now hmem => exact completeFetch_atMostOne s req o now ih
    | addEl nick ctx =>
      intro el hel
      rcases List.mem_append.mp hel with h1 | h1
      · exact ih el h1
      · rw [List.mem_singleton] at h1
        subst h1
        show ([] : List Avatar).length ≤ 1
        decide
    | removeEl i =>
      exact fun el hel => ih el (List.mem_of_mem_eraseIdx hel)
    | recycleEl i el hlen hav =>
      intro el2 hel2
      rcases List.mem_or_eq_of_mem_set hel2 with h1 | h1
      · exact ih el2 h1
      · subst h1
        exact hav ▸ ih _ (List.get_mem s.els i hlen)

/- ── Negative-cache TTL behavior (C4) ───────────────────────────────── -/

theorem queue_any_iff_mem (st : AvState) (k : Str) :
    (st.queue.any (fun it => decide (it.key = k))) = true ↔ k ∈ queueKeys st := by
  rw [List.any_eq_true, queueKeys]
  constructor
  · rintro ⟨it, hit, hk⟩
    exact List.mem_map.mpr ⟨it, hit, by simpa using hk⟩
  · intro h
    obtain ⟨it, hit, hk⟩ := List.mem_map.mp h
    exact ⟨it, hit, by simpa using hk⟩

theorem enqueue_reqCount_push (st : AvState) (nick : Str)
    (hc : (alookup (toLowerStr nick) st.cache).isSome = false)
    (hq : st.queue.any (fun it => decide (it.key = toLowerStr nick)) = false) :
    reqCount (toLowerStr nick) (enqueue st nick) = reqCount (toLowerStr nick) st + 1 := by
  rw [enqueue_push st nick hc hq, drainQueue_reqCount]
  simp only [reqCount, List.countP_append, List.countP_cons, List.countP_nil]
  simp
  omega

theorem processUserElement_out_of_range (st : AvState) (now i : Nat)
    (h : st.els[i]? = none) : processUserElement st now i = st := by
  unfold processUserElement
  rw [h]

theorem processUserElement_no_trigger (st : AvState) (now i : Nat) (k : Str) (el : El)
    (hel : st.els[i]? = some el)
    (hkey : ∀ n, el.nick = some n → toLowerStr n = k)
    (hnt : elTriggers el k = false) :
    processUserElement st now i = st := by
  obtain ⟨nopt, ctx, avs⟩ := el
  unfold processUserElement
  rw [hel]
  cases nopt with
  | none => rfl
  | some n =>
    have hk := hkey n rfl
    rw [elTriggers] at hnt
    dsimp only at hnt ⊢
    by_cases h1 : n = []
    · rw [if_pos h1]
    · rw [if_neg h1]
      by_cases h2 : isServiceNick n = true
      · rw [if_pos h2]
      · rw [if_neg h2]
        by_cases h3 : ctx = Ctx.other
        · rw [if_pos h3]
        · rw [if_neg h3]
          cases hhead : avs.head? with
          | some a =>
            by_cases h4 : a.nick = n
            · dsimp only
              rw [if_pos h4]
            · exfalso
              rw [hhead] at hnt
              simp [h1, h3, hk, h4, Bool.not_eq_true _ ▸ h2] at hnt
          | none =>
            exfalso
            rw [hhead] at hnt
            simp [h1, h3, hk, Bool.not_eq_true _ ▸ h2] at hnt

/-- Coarser case analysis of `procCached`: either the queue, in-flight
list and cache are untouched, or an enqueue runs (with or without a prior
eviction of an expired negative entry). -/
theorem procCached_shape2 (st : AvState) (now : Nat) (i : Nat) (nick key : Str) :
    ((procCached st now i nick key).cache = st.cache ∧
     (procCached st now i nick key).queue = st.queue ∧
     (procCached st now i nick key).inflight = st.inflight) ∨
    (∃ ou ts, alookup key st.cache = some ⟨ou, ts⟩ ∧ ¬ (now - ts < NEGATIVE_TTL) ∧
       procCached st now i nick key =
         enqueue { st with cache := aerase key st.cache } nick) ∨
    (alookup key st.cache = none ∧ procCached st now i nick key = enqueue st nick) := by
  rcases procCached_shape st now i nick key with
    ⟨u, ts, _, _, heq⟩ | ⟨ou, ts, _, _, _, heq⟩ | ⟨ou, ts, hc, _, hf, heq⟩ | ⟨hc, heq⟩
  · rw [heq]; exact Or.inl ⟨rfl, rfl, rfl⟩
  · rw [heq]; exact Or.inl ⟨rfl, rfl, rfl⟩
  · exact Or.inr (Or.inl ⟨ou, ts, hc, hf, heq⟩)
  · exact Or.inr (Or.inr ⟨hc, heq⟩)

theorem processUserElement_other_key (st : AvState) (now i : Nat) (k : Str)
    (hother : ∀ el n, st.els[i]? = some el → el.nick = some n → toLowerStr n ≠ k) :
    alookup k (processUserElement st now i).cache = alookup k st.cache ∧
    reqCount k (processUserElement st now i) = reqCount k st ∧
    (k ∉ queueKeys st → k ∉ queueKeys (processUserElement st now i)) := by
  rcases processUserElement_shape st now i with heq |
    ⟨el, nick, st1, hel, hnick, _, _, _, _, hcache, hq, hinf, heq⟩
  · rw [heq]; exact ⟨rfl, rfl, fun h => h⟩
  · have hne : toLowerStr nick ≠ k := hother el nick hel hnick
    rw [heq]
    have hreq1 : reqCount k st1 = reqCount k st := by
      rw [reqCount, hq, hinf]; rfl
    have hqk1 : queueKeys st1 = queueKeys st := by rw [queueKeys, hq]; rfl
    rcases procCached_shape2 st1 now i nick (toLowerStr nick) with
      ⟨hc2, hq2, hf2⟩ | ⟨ou, ts, _, _, heq2⟩ | ⟨_, heq2⟩
    · refine ⟨?_, ?_, ?_⟩
      · rw [hc2, hcache]
      · rw [reqCount, hq2, hf2]
        exact hreq1
      · intro h
        rw [queueKeys, hq2]
        show k ∉ queueKeys st1
        rw [hqk1]
        exact h
    · rw [heq2]
      refine ⟨?_, ?_, ?_⟩
      · rw [enqueue_cache]
        show alookup k (aerase (toLowerStr nick) st1.cache) = alookup k st.cache
        rw [alookup_aerase_ne _ _ _ (fun he => hne he.symm), hcache]
      · rw [enqueue_reqCount_ne _ _ _ hne]
        show reqCount k st1 = reqCount k st
        exact hreq1
      · intro h
        apply enqueue_queueKeys_not_mem _ _ _ _ hne
        show k ∉ queueKeys st1
        rw [hqk1]; exact h
    · rw [heq2]
      refine ⟨?_, ?_, ?_⟩
      · rw [enqueue_cache, hcache]
      · rw [enqueue_reqCount_ne _ _ _ hne]
        exact hreq1
      · intro h
        apply enqueue_queueKeys_not_mem _ _ _ _ hne
        rw [hqk1]; exact h

theorem processUserElement_trigger (st : AvState) (now i : Nat) (el : El) (n : Str)
    (hel : st.els[i]? = some el) (hnick : el.nick = some n)
    (ht : elTriggers el (toLowerStr n) = true) :
    ∃ st1 : AvState, st1.cache = st.cache ∧ st1.queue = st.queue ∧
      st1.inflight = st.inflight ∧
      processUserElement st now i = procCached st1 now i n (toLowerStr n) := by
  obtain ⟨nopt, ctx, avs⟩ := el
  cases hnick
  rw [elTriggers] at ht
  unfold processUserElement
  rw [hel]
  dsimp only at ht ⊢
  have h1 : ¬ n = [] := by
    intro h; rw [h] at ht; simp at ht
  have h2 : isServiceNick n = false := by
    cases h : isServiceNick n
    · rfl
    · rw [h] at ht; simp at ht
  have h3 : ¬ ctx = Ctx.other := by
    intro h; rw [h] at ht; simp at ht
  rw [if_neg h1, if_neg (by rw [h2]; exact Bool.false_ne_true), if_neg h3]
  cases hhead : avs.head? with
  | some a =>
    have h4 : ¬ a.nick = n := by
      intro h
      rw [hhead] at ht
      simp [h] at ht
    dsimp only
    rw [if_neg h4]
    exact ⟨{ st with els := st.els.set i ⟨some n, ctx, avs.tail⟩ },
      rfl, rfl, rfl, rfl⟩
  | none =>
    exact ⟨st, rfl, rfl, rfl, rfl⟩

theorem elTriggers_nick (el : El) (k : Str) (h : elTriggers el k = true) :
    ∃ n, el.nick = some n ∧ toLowerStr n = k := by
  unfold elTriggers at h
  cases hn : el.nick with
  | none => rw [hn] at h; exact absurd h (by simp)
  | some n =>
    rw [hn] at h
    refine ⟨n, rfl, ?_⟩
    simp only [Bool.and_eq_true, decide_eq_true_eq] at h
    exact h.1.2

theorem injectAvatarEl_nick (e : El) (nick url : Str) :
    (injectAvatarEl e nick url).nick = e.nick := by
  unfold injectAvatarEl
  split
  · rfl
  · split
    · split <;> rfl
    · rfl

theorem processUserElement_nick_at (st : AvState) (now i : Nat) (el : El)
    (hel : st.els[i]? = some el) :
    ∃ el2, (processUserElement st now i).els[i]? = some el2 ∧ el2.nick = el.nick := by
  have hlt : i < st.els.length := by
    rw [List.getElem?_eq_some] at hel
    exact hel.1
  rcases processUserElement_shape st now i with heq |
    ⟨el0, nick, st1, hel0, hnick, _, _, _, hst1, _, _, _, heq⟩
  · exact ⟨el, by rw [heq, hel], rfl⟩
  · have hee : el0 = el := Option.some.inj (hel0 ▸ hel)
    have hlen1 : st1.els.length = st.els.length := by
      rcases hst1 with h2 | h2
      · rw [h2]
      · rw [h2]; simp
    have hex1 : ∃ e1, st1.els[i]? = some e1 ∧ e1.nick = el.nick := by
      rcases hst1 with h2 | h2
      · exact ⟨el, by rw [h2]; exact hel, rfl⟩
      · refine ⟨{ el0 with avatars := el0.avatars.tail }, ?_, ?_⟩
        · rw [h2]
          exact List.getElem?_set_eq_of_lt _ (by simpa using hlt)
        · show el0.nick = el.nick
          rw [hee]
    obtain ⟨e1, he1, hn1⟩ := hex1
    rw [heq]
    rcases procCached_shape st1 now i nick (toLowerStr nick) with
      ⟨u, ts, _, _, heq2⟩ | ⟨ou, ts, _, _, _, heq2⟩ | ⟨ou, ts, _, _, _, heq2⟩ | ⟨_, heq2⟩
    · rw [heq2]
      show ∃ el2, (match st1.els[i]? with
        | some el3 => st1.els.set i (injectAvatarEl el3 nick u)
        | none => st1.els)[i]? = some el2 ∧ el2.nick = el.nick
      rw [he1]
      refine ⟨injectAvatarEl e1 nick u, ?_, ?_⟩
      · exact List.getElem?_set_eq_of_lt _ (by rw [hlen1]; exact hlt)
      · rw [injectAvatarEl_nick, hn1]
    · rw [heq2]
      exact ⟨e1, he1, hn1⟩
    · rw [heq2, enqueue_els]
      exact ⟨e1, he1, hn1⟩
    · rw [heq2, enqueue_els]
      exact ⟨e1, he1, hn1⟩

theorem processUserElement_status_false (st : AvState) (now i j : Nat) (k : Str)
    (hj : elStatus st k j = false) :
    elStatus (processUserElement st now i) k j = false := by
  by_cases hij : j = i
  · subst hij
    cases hel : st.els[j]? with
    | none =>
      rw [processUserElement_out_of_range st now j hel]
      exact hj
    | some el =>
      by_cases hkk : ∃ n, el.nick = some n ∧ toLowerStr n = k
      · obtain ⟨n, hn, hk⟩ := hkk
        rw [elStatus, hel] at hj
        rw [processUserElement_no_trigger st now j k el hel
          (fun n2 hn2 => by rw [hn] at hn2; rw [← Option.some.inj hn2]; exact hk) hj]
        rw [elStatus, hel]
        exact hj
      · obtain ⟨el2, hel2, hnick2⟩ := processUserElement_nick_at st now j el hel
        rw [elStatus, hel2]
        cases hn2 : el2.nick with
        | none =>
          show elTriggers el2 k = false
          unfold elTriggers
          rw [hn2]
        | some n =>
          have : el.nick = some n := by rw [← hnick2, hn2]
          have hne : toLowerStr n ≠ k := fun hk => hkk ⟨n, this, hk⟩
          show elTriggers el2 k = false
          unfold elTriggers
          rw [hn2]
          simp [hne]
  · rw [elStatus, processUserElement_els_get_ne st now i j hij]
    exact hj

theorem triggerCount_eq_countP (st : AvState) (k : Str) (is : List Nat) :
    triggerCount st k is = is.countP (elStatus st k) := by
  rw [triggerCount]
  apply List.countP_congr
  intro j _
  rw [elStatus]

/-- Post phase of an expired-entry scan: once the entry is gone and every
remaining element lacks a trigger for `k`, the scan leaves the cache entry
absent and the pending-request count unchanged. -/
theorem scanGo_post (k : Str) (now : Nat) :
    ∀ (is : List Nat) (st : AvState) (R : Nat),
    (∀ j ∈ is, elStatus st k j = false) →
    alookup k st.cache = none → reqCount k st = R →
    alookup k (scanGo st now is).cache = none ∧ reqCount k (scanGo st now is) = R := by
  intro is
  induction is with
  | nil => intro st R _ hc hr; exact ⟨hc, hr⟩
  | cons i rest ih =>
    intro st R hstat hc hr
    show alookup k (scanGo (processUserElement st now i) now rest).cache = none ∧ _
    have hstep : alookup k (processUserElement st now i).cache = none ∧
        reqCount k (processUserElement st now i) = R := by
      cases hel : st.els[i]? with
      | none =>
        rw [processUserElement_out_of_range st now i hel]
        exact ⟨hc, hr⟩
      | some el =>
        by_cases hkk : ∃ n, el.nick = some n ∧ toLowerStr n = k
        · obtain ⟨n, hn, hk⟩ := hkk
          have hfalse : elTriggers el k = false := by
            have := hstat i (List.mem_cons_self i rest)
            rw [elStatus, hel] at this
            exact this
          rw [processUserElement_no_trigger st now i k el hel
            (fun n2 hn2 => by rw [hn] at hn2; rw [← Option.some.inj hn2]; exact hk) hfalse]
          exact ⟨hc, hr⟩
        · obtain ⟨h1, h2, _⟩ := processUserElement_other_key st now i k
            (by
              intro el2 n hel2 hn2 hk
              rw [hel] at hel2
              exact hkk ⟨n, (Option.some.inj hel2) ▸ hn2, hk⟩)
          rw [h1, h2]
          exact ⟨hc, hr⟩
    exact ih (processUserElement st now i) R
      (fun j hj => processUserElement_status_false st now i j k
        (hstat j (List.mem_cons_of_mem i hj)))
      hstep.1 hstep.2

/-- An expired-entry scan with exactly one triggering element: the entry is
evicted and exactly one new request is issued. -/
theorem scanGo_expired (k : Str) (now ts : Nat) (hexp : ¬ (now - ts < NEGATIVE_TTL)) :
    ∀ (is : List Nat) (st : AvState) (R : Nat),
    is.Nodup →
    is.countP (elStatus st k) = 1 →
    alookup k st.cache = some ⟨none, ts⟩ → k ∉ queueKeys st → reqCount k st = R →
    alookup k (scanGo st now is).cache = none ∧ reqCount k (scanGo st now is) = R + 1 := by
  intro is
  induction is with
  | nil => intro st R _ hcount _ _ _; exact absurd hcount (by simp)
  | cons i rest ih =>
    intro st R hnodup hcount hc hqk hr
    rw [List.countP_cons] at hcount
    show alookup k (scanGo (processUserElement st now i) now rest).cache = none ∧ _
    by_cases hstat : elStatus st k i = true
    · have hrest0 : rest.countP (elStatus st k) = 0 := by
        have h1 : (if elStatus st k i = true then 1 else 0) = 1 := by rw [hstat]; rfl
        omega
      cases hel : st.els[i]? with
      | none => rw [elStatus, hel] at hstat; exact absurd hstat (by simp)
      | some el =>
        rw [elStatus, hel] at hstat
        obtain ⟨n, hn, hk⟩ := elTriggers_nick el k hstat
        obtain ⟨st1, hcache1, hq1, hinf1, heq1⟩ :=
          processUserElement_trigger st now i el n hel hn (by rw [hk]; exact hstat)
        have hstep : alookup k (processUserElement st now i).cache = none ∧
            reqCount k (processUserElement st now i) = R + 1 := by
          rw [heq1, hk]
          rcases procCached_shape st1 now i n k with
            ⟨u, ts2, hcc, _, _⟩ | ⟨ou, ts2, hcc, _, hfr, _⟩ |
              ⟨ou, ts2, hcc, _, _, heq2⟩ | ⟨hcc, _⟩
          · rw [hcache1, hc] at hcc
            exact absurd (congrArg (fun e => (Option.getD e ⟨none, 0⟩).url) hcc) (by simp)
          · rw [hcache1, hc] at hcc
            have : ts = ts2 := by
              have := Option.some.inj hcc
              exact congrArg CacheEntry.ts this
            exact absurd (this ▸ hfr) hexp
          · rw [heq2]
            have hcnone : (alookup k (aerase k st1.cache)).isSome = false := by
              rw [alookup_aerase_self]
              rfl
            have hqnone : ({ st1 with cache := aerase k st1.cache } : AvState).queue.any
                (fun it => decide (it.key = k)) = false := by
              show st1.queue.any (fun it => decide (it.key = k)) = false
              rw [hq1]
              cases hany : st.queue.any (fun it => decide (it.key = k)) with
              | false => rfl
              | true => exact absurd ((queue_any_iff_mem st k).mp hany) hqk
            constructor
            · rw [show (enqueue { st1 with cache := aerase k st1.cache } n).cache =
                  ({ st1 with cache := aerase k st1.cache } : AvState).cache from
                    hk ▸ enqueue_cache _ n]
              exact alookup_aerase_self k st1.cache
            · have := enqueue_reqCount_push { st1 with cache := aerase k st1.cache } n
                (by rw [hk]; exact hcnone) (by rw [hk]; exact hqnone)
              rw [hk] at this
              rw [this]
              have : reqCount k ({ st1 with cache := aerase k st1.cache } : AvState) =
                  reqCount k st := by
                rw [reqCount, reqCount]
                show st1.queue.countP _ + st1.inflight.countP _ = _
                rw [hq1, hinf1]
              omega
          · rw [hcache1, hc] at hcc
            exact absurd hcc (by simp)
        have hpost := scanGo_post k now rest (processUserElement st now i) (R + 1)
          (fun j hj => processUserElement_status_false st now i j k
            (by
              have := List.countP_eq_zero.mp hrest0 j hj
              simpa using this))
          hstep.1 hstep.2
        exact hpost
    · have hstatf : elStatus st k i = false := by
        cases h : elStatus st k i
        · rfl
        · exact absurd h hstat
      have hrest1 : rest.countP (elStatus st k) = 1 := by
        have h1 : (if elStatus st k i = true then 1 else 0) = 0 := by rw [hstatf]; rfl
        omega
      have hinotin : i ∉ rest := (List.nodup_cons.mp hnodup).1
      have hstep : alookup k (processUserElement st now i).cache = some ⟨none, ts⟩ ∧
          reqCount k (processUserElement st now i) = R ∧
          k ∉ queueKeys (processUserElement st now i) := by
        cases hel : st.els[i]? with
        | none =>
          rw [processUserElement_out_of_range st now i hel]
          exact ⟨hc, hr, hqk⟩
        | some el =>
          by_cases hkk : ∃ n, el.nick = some n ∧ toLowerStr n = k
          · obtain ⟨n, hn, hk⟩ := hkk
            have hfalse : elTriggers el k = false := by
              rw [elStatus, hel] at hstatf
              exact hstatf
            rw [processUserElement_no_trigger st now i k el hel
              (fun n2 hn2 => by rw [hn] at hn2; rw [← Option.some.inj hn2]; exact hk) hfalse]
            exact ⟨hc, hr, hqk⟩
          · obtain ⟨h1, h2, h3⟩ := processUserElement_other_key st now i k
              (by
                intro el2 n hel2 hn2 hk
                rw [hel] at hel2
                exact hkk ⟨n, (Option.some.inj hel2) ▸ hn2, hk⟩)
            rw [h1, h2]
            exact ⟨hc, hr, h3 hqk⟩
      have hcount2 : rest.countP (elStatus (processUserElement st now i) k) = 1 := by
        rw [← hrest1]
        apply List.countP_congr
        intro j hj
        have hji : j ≠ i := fun he => hinotin (he ▸ hj)
        rw [elStatus, elStatus, processUserElement_els_get_ne st now i j hji]
      exact ih (processUserElement st now i) R (List.nodup_cons.mp hnodup).2
        hcount2 hstep.1 hstep.2.2 hstep.2.1

/-- A scan while the negative entry is fresh: the entry survives untouched
and no new request is issued. -/
theorem scanGo_fresh (k : Str) (now ts : Nat) (hfr : now - ts < NEGATIVE_TTL) :
    ∀ (is : List Nat) (st : AvState),
    alookup k st.cache = some ⟨none, ts⟩ →
    alookup k (scanGo st now is).cache = some ⟨none, ts⟩ ∧
      reqCount k (scanGo st now is) = reqCount k st := by
  intro is
  induction is with
  | nil => intro st hc; exact ⟨hc, rfl⟩
  | cons i rest ih =>
    intro st hc
    show alookup k (scanGo (processUserElement st now i) now rest).cache = _ ∧ _
    have hstep : alookup k (processUserElement st now i).cache = some ⟨none, ts⟩ ∧
        reqCount k (processUserElement st now i) = reqCount k st := by
      cases hel : st.els[i]? with
      | none =>
        rw [processUserElement_out_of_range st now i hel]
        exact ⟨hc, rfl⟩
      | some el =>
        by_cases hkk : ∃ n, el.nick = some n ∧ toLowerStr n = k
        · obtain ⟨n, hn, hk⟩ := hkk
          rcases processUserElement_shape st now i with heq |
            ⟨el0, nick, st1, hel0, hnick0, _, _, _, _, hcache1, hq1, hinf1, heq⟩
          · rw [heq]; exact ⟨hc, rfl⟩
          · have hee : el0 = el := by
              rw [hel0] at hel
              exact Option.some.inj hel
            subst hee
            have hkn : toLowerStr nick = k := by
              rw [hn] at hnick0
              rw [Option.some.inj hnick0] at hk
              exact hk
            rw [heq]
            rcases procCached_shape st1 now i nick (toLowerStr nick) with
              ⟨u, ts2, hcc, _, _⟩ | ⟨ou, ts2, hcc, _, _, heq2⟩ |
                ⟨ou, ts2, hcc, _, hfr2, _⟩ | ⟨hcc, _⟩
            · rw [hkn, hcache1, hc] at hcc
              exact absurd (congrArg (fun e => (Option.getD e ⟨none, 0⟩).url) hcc) (by simp)
            · rw [heq2]
              constructor
              · show alookup k st1.cache = _
                rw [hcache1]; exact hc
              · rw [reqCount, reqCount]
                show st1.queue.countP _ + st1.inflight.countP _ = _
                rw [hq1, hinf1]
            · rw [hkn, hcache1, hc] at hcc
              have hts : ts = ts2 := congrArg CacheEntry.ts (Option.some.inj hcc)
              exact absurd (hts ▸ hfr) hfr2
            · rw [hkn, hcache1, hc] at hcc
              exact absurd hcc (by simp)
        · obtain ⟨h1, h2, _⟩ := processUserElement_other_key st now i k
            (by
              intro el2 n hel2 hn2 hk
              rw [hel] at hel2
              exact hkk ⟨n, (Option.some.inj hel2) ▸ hn2, hk⟩)
          rw [h1, h2]
          exact ⟨hc, rfl⟩
    obtain ⟨hs1, hs2⟩ := ih (processUserElement st now i) hstep.1
    refine ⟨hs1, ?_⟩
    show reqCount k (scanGo (processUserElement st now i) now rest) = reqCount k st
    rw [hs2, hstep.2]

/- ── Claim theorems: avatar subsystem ───────────────────────────────── -/

/-- Claim C1: in every reachable state the number of in-flight lookups
(`activeCount`) is at most `MAX_CONCURRENT`; a completion (success or
failure alike) retires its request — decrementing the count — and then
runs the drain loop, and the drain loop pulls queued items only while the
count is below the maximum (at or above it, it does nothing; starting at
or below it, it never exceeds it). -/
theorem claim_C1 (st : AvState) (h : Reachable st) (req : QItem)
    (outcome : FetchOutcome) (now : Nat) (s : AvState) :
    st.inflight.length ≤ MAX_CONCURRENT ∧
    (req ∈ st.inflight →
      completeFetch st req outcome now = drainQueue (settleOutcome st req outcome now) ∧
      (settleOutcome st req outcome now).inflight.length + 1 = st.inflight.length) ∧
    (MAX_CONCURRENT ≤ s.inflight.length → drainQueue s = s) ∧
    (s.inflight.length ≤ MAX_CONCURRENT →
      (drainQueue s).inflight.length ≤ MAX_CONCURRENT) := by
  refine ⟨reachable_inflight_le st h, ?_, ?_, ?_⟩
  · intro hmem
    refine ⟨rfl, ?_⟩
    rw [settleOutcome_inflight, List.length_erase_of_mem hmem]
    have : 1 ≤ st.inflight.length := List.length_pos.mpr (List.ne_nil_of_mem hmem)
    omega
  · intro hfull
    unfold drainQueue
    rw [drainAux_full _ _ hfull]
  · intro hle
    exact drainAux_inflight_le _ _ hle

/-- Witness for C1 at a concrete reachable state with one in-flight
request for `bob`. -/
theorem claim_C1_witness :
    trB2.inflight.length ≤ MAX_CONCURRENT ∧
    (completeFetch trB2 ⟨strOf "bob", strOf "bob"⟩ FetchOutcome.netError 7 =
        drainQueue (settleOutcome trB2 ⟨strOf "bob", strOf "bob"⟩ FetchOutcome.netError 7) ∧
      (settleOutcome trB2 ⟨strOf "bob", strOf "bob"⟩ FetchOutcome.netError 7).inflight.length + 1 =
        trB2.inflight.length) := by
  have hreach : Reachable trB2 :=
    Reachable.step
      (Reachable.step Reachable.init (AvStep.addEl initState (some (strOf "bob")) Ctx.nicklist))
      (AvStep.scan trB1 0)
  have h := claim_C1 trB2 hreach ⟨strOf "bob", strOf "bob"⟩ FetchOutcome.netError 7 trB2
  exact ⟨h.1, h.2.1 (by decide)⟩

/-- Counterexample to C2 as stated: in reachable state `trA11` the key
`kk` sits in the queue although it is present in the cache (a completion
filled the cache while `kk` was queued behind `xx` at full concurrency),
and in reachable state `trB3` two fetches for the single nickname `bob`
are in flight at once, so duplicate lookups did not collapse to a single
fetch. -/
theorem claim_C2_counterexample :
    (Reachable trA11 ∧ (alookup (strOf "kk") trA11.cache).isSome = true ∧
      strOf "kk" ∈ queueKeys trA11) ∧
    (Reachable trB3 ∧ reqCount (strOf "bob") trB3 = 2) := by
  have hA : Reachable trA11 :=
    Reachable.step
      (Reachable.step
        (Reachable.step
          (Reachable.step
            (Reachable.step
              (Reachable.step
                (Reachable.step
                  (Reachable.step
                    (Reachable.step
                      (Reachable.step
                        (Reachable.step Reachable.init
                          (AvStep.addEl initState (some (strOf "kk")) Ctx.nicklist))
                        (AvStep.addEl trA1 (some (strOf "aa")) Ctx.nicklist))
                      (AvStep.addEl trA2 (some (strOf "bb")) Ctx.nicklist))
                    (AvStep.scan trA3 0))
                  (AvStep.removeEl trA4 0))
                (AvStep.removeEl trA5 0))
              (AvStep.removeEl trA6 0))
            (AvStep.addEl trA7 (some (strOf "xx")) Ctx.nicklist))
          (AvStep.addEl trA8 (some (strOf "kk")) Ctx.nicklist))
        (AvStep.scan trA9 5))
      (AvStep.complete trA10 ⟨strOf "kk", strOf "kk"⟩ FetchOutcome.netError 6 (by decide))
  have hB : Reachable trB3 :=
    Reachable.step
      (Reachable.step
        (Reachable.step Reachable.init
          (AvStep.addEl initState (some (strOf "bob")) Ctx.nicklist))
        (AvStep.scan trB1 0))
      (AvStep.scan trB2 1)
  exact ⟨⟨hA, by decide, by decide⟩, ⟨hB, by decide⟩⟩

/-- Claim C2 (amended): in every reachable state the queue holds no two
entries with the same key, and `enqueue` is a no-op whenever the key is
cached or already queued.  (The original claim's further assertions — that
a queued key is never simultaneously cached and that duplicate lookups
always collapse to one fetch — fail, because a key whose fetch is merely
in flight is neither cached nor queued and is re-enqueued.) -/
theorem claim_C2 (st : AvState) (h : Reachable st) (nick : Str) :
    (queueKeys st).Nodup ∧
    ((alookup (toLowerStr nick) st.cache).isSome = true → enqueue st nick = st) ∧
    (toLowerStr nick ∈ queueKeys st → enqueue st nick = st) := by
  refine ⟨reachable_queueKeys_nodup st h, ?_, ?_⟩
  · intro hc
    exact enqueue_noop_cached st nick hc
  · intro hq
    by_cases hc : (alookup (toLowerStr nick) st.cache).isSome = true
    · exact enqueue_noop_cached st nick hc
    · exact enqueue_noop_queued st nick (by simpa using hc)
        ((queue_any_iff_mem st (toLowerStr nick)).mpr hq)

/-- Witness for C2 at the reachable state `trA11`, where `kk` is both
cached and queued: the queue keys are duplicate-free and enqueueing `kk`
again changes nothing. -/
theorem claim_C2_witness :
    (queueKeys trA11).Nodup ∧ enqueue trA11 (strOf "kk") = trA11 := by
  have hA : Reachable trA11 :=
    Reachable.step
      (Reachable.step
        (Reachable.step
          (Reachable.step
            (Reachable.step
              (Reachable.step
                (Reachable.step
                  (Reachable.step
                    (Reachable.step
                      (Reachable.step
                        (Reachable.step Reachable.init
                          (AvStep.addEl initState (some (strOf "kk")) Ctx.nicklist))
                        (AvStep.addEl trA1 (some (strOf "aa")) Ctx.nicklist))
                      (AvStep.addEl trA2 (some (strOf "bb")) Ctx.nicklist))
                    (AvStep.scan trA3 0))
                  (AvStep.removeEl trA4 0))
                (AvStep.removeEl trA5 0))
              (AvStep.removeEl trA6 0))
            (AvStep.addEl trA7 (some (strOf "xx")) Ctx.nicklist))
          (AvStep.addEl trA8 (some (strOf "kk")) Ctx.nicklist))
        (AvStep.scan trA9 5))
      (AvStep.complete trA10 ⟨strOf "kk", strOf "kk"⟩ FetchOutcome.netError 6 (by decide))
  have h := claim_C2 trA11 hA (strOf "kk")
  exact ⟨h.1, h.2.1 (by decide)⟩

/-- Counterexample to C3 as stated: the empty string is a non-null URL
that does not start with `/static/`, yet a successful response carrying
it is stored as a negative entry and injects nothing — `doFetch` tests
the URL with JS truthiness (`data && data.avatar_url`), not against
null, so the empty string is coerced to null before the cache write. -/
theorem claim_C3_counterexample :
    (strOf "/static/").isPrefixOf ([] : Str) = false ∧
    resolvedUrl (FetchOutcome.ok (some [])) = none ∧
    alookup (strOf "alice")
        (completeFetch trD2 ⟨strOf "alice", strOf "alice"⟩
          (FetchOutcome.ok (some [])) 7).cache = some ⟨none, 7⟩ ∧
    (completeFetch trD2 ⟨strOf "alice", strOf "alice"⟩
        (FetchOutcome.ok (some [])) 7).els = trD2.els := by
  refine ⟨by decide, rfl, by decide, by decide⟩

/-- Claim C3 (amended): a completed lookup resolving to a truthy — that
is, non-null and non-empty — URL outside the `/static/` prefix stores a
positive cache entry stamped `now` and injects into every element whose
`data-name` is the fetched nickname; every other outcome (HTTP error,
malformed JSON, network error, null URL, empty URL, or a
`/static/`-prefixed URL) stores a negative entry stamped `now` and
injects nothing. -/
theorem claim_C3 (st : AvState) (req : QItem) (outcome : FetchOutcome) (now : Nat) :
    (∀ u, resolvedUrl outcome = some u →
      alookup req.key (completeFetch st req outcome now).cache = some ⟨some u, now⟩ ∧
      (completeFetch st req outcome now).els = injectAllForNick st.els req.nick u) ∧
    (resolvedUrl outcome = none →
      alookup req.key (completeFetch st req outcome now).cache = some ⟨none, now⟩ ∧
      (completeFetch st req outcome now).els = st.els) ∧
    (∀ u, outcome = .ok (some u) → u ≠ [] → (strOf "/static/").isPrefixOf u = false →
      resolvedUrl outcome = some u) ∧
    ((outcome = .httpError ∨ outcome = .jsonError ∨ outcome = .netError ∨
        outcome = .ok none ∨
        (∃ u, outcome = .ok (some u) ∧
          (u = [] ∨ (strOf "/static/").isPrefixOf u = true))) →
      resolvedUrl outcome = none) := by
  refine ⟨?_, ?_, ?_, ?_⟩
  · intro u hu
    constructor
    · show alookup req.key (settleOutcome st req outcome now).cache = _
      rw [settleOutcome_cache, hu, alookup_aset_self]
    · show (settleOutcome st req outcome now).els = _
      rw [settleOutcome_els_pos st req outcome now u hu]
  · intro hu
    constructor
    · show alookup req.key (settleOutcome st req outcome now).cache = _
      rw [settleOutcome_cache, hu, alookup_aset_self]
    · show (settleOutcome st req outcome now).els = _
      rw [settleOutcome_els_neg st req outcome now hu]
  · intro u hout hne hstat
    rw [hout]
    unfold resolvedUrl
    dsimp only
    rw [if_neg hne]
    simp [hstat]
  · intro hout
    rcases hout with h1 | h1 | h1 | h1 | ⟨u, h1, h2⟩ <;> rw [h1] <;> try rfl
    unfold resolvedUrl
    dsimp only
    rcases h2 with h2 | h2
    · rw [if_pos h2]
    · by_cases hu : u = []
      · rw [if_pos hu]
      · rw [if_neg hu, if_pos h2]

/-- Witness for C3: a successful lookup for `alice` caches the URL and
injects it; a `/static/` URL caches a negative entry and injects
nothing. -/
theorem claim_C3_witness :
    (alookup (strOf "alice")
        (completeFetch trD2 ⟨strOf "alice", strOf "alice"⟩
          (FetchOutcome.ok (some (strOf "/media/avatars/a.png"))) 7).cache =
      some ⟨some (strOf "/media/avatars/a.png"), 7⟩ ∧
      (completeFetch trD2 ⟨strOf "alice", strOf "alice"⟩
          (FetchOutcome.ok (some (strOf "/media/avatars/a.png"))) 7).els =
        injectAllForNick trD2.els (strOf "alice") (strOf "/media/avatars/a.png")) ∧
    (alookup (strOf "alice")
        (completeFetch trD2 ⟨strOf "alice", strOf "alice"⟩
          (FetchOutcome.ok (some (strOf "/static/default.png"))) 7).cache =
      some ⟨none, 7⟩ ∧
      (completeFetch trD2 ⟨strOf "alice", strOf "alice"⟩
          (FetchOutcome.ok (some (strOf "/static/default.png"))) 7).els = trD2.els) := by
  have h1 := claim_C3 trD2 ⟨strOf "alice", strOf "alice"⟩
    (FetchOutcome.ok (some (strOf "/media/avatars/a.png"))) 7
  have h2 := claim_C3 trD2 ⟨strOf "alice", strOf "alice"⟩
    (FetchOutcome.ok (some (strOf "/static/default.png"))) 7
  exact ⟨h1.1 (strOf "/media/avatars/a.png") (by decide), h2.2.1 (by decide)⟩

/-- Counterexample to C4 as stated: in reachable state `trC4` the negative
entry for `bob` (timestamp 0) has reached the TTL, two elements match the
nickname, and one scan issues two new lookup requests rather than exactly
one ("multiple matching elements in one scan still produce a single
enqueue" fails, because a dispatched fetch is neither queued nor cached
while in flight). -/
theorem claim_C4_counterexample :
    Reachable trC4 ∧
    alookup (strOf "bob") trC4.cache = some ⟨none, 0⟩ ∧
    reqCount (strOf "bob") trC4 = 0 ∧
    reqCount (strOf "bob") (scanAll trC4 NEGATIVE_TTL) = 2 := by
  have hC : Reachable trC4 :=
    Reachable.step
      (Reachable.step
        (Reachable.step
          (Reachable.step Reachable.init
            (AvStep.addEl initState (some (strOf "bob")) Ctx.nicklist))
          (AvStep.scan trC1 0))
        (AvStep.complete trC2 ⟨strOf "bob", strOf "bob"⟩ FetchOutcome.netError 0 (by decide)))
      (AvStep.addEl trC3 (some (strOf "bob")) Ctx.msg)
  exact ⟨hC, by decide, by decide, by decide⟩

/-- Claim C4 (amended): while a negative entry's age is below the TTL a
scan keeps the entry and issues no new request for its key; once the age
reaches the TTL, a scan in which exactly one element triggers for the key
evicts the entry and issues exactly one new request.  (The original
claim's parenthetical fails: with several matching elements one scan can
issue several requests, one per element, while the first is in flight.) -/
theorem claim_C4 (st : AvState) (k : Str) (ts now : Nat)
    (hc : alookup k st.cache = some ⟨none, ts⟩) :
    (now - ts < NEGATIVE_TTL →
      alookup k (scanAll st now).cache = some ⟨none, ts⟩ ∧
      reqCount k (scanAll st now) = reqCount k st) ∧
    (¬ (now - ts < NEGATIVE_TTL) →
      k ∉ queueKeys st →
      (List.range st.els.length).countP (elStatus st k) = 1 →
      alookup k (scanAll st now).cache = none ∧
      reqCount k (scanAll st now) = reqCount k st + 1) := by
  constructor
  · intro hfr
    exact scanGo_fresh k now ts hfr (List.range st.els.length) st hc
  · intro hexp hqk hcount
    exact scanGo_expired k now ts hexp (List.range st.els.length) st (reqCount k st)
      (List.nodup_range st.els.length) hcount hc hqk rfl

/-- Witness for C4 at the reachable-style state `trC3` (negative entry for
`bob` stamped 0, one matching element): a scan at time 100 keeps the entry
and issues nothing; a scan at the TTL evicts it and issues exactly one
request. -/
theorem claim_C4_witness :
    (alookup (strOf "bob") (scanAll trC3 100).cache = some ⟨none, 0⟩ ∧
      reqCount (strOf "bob") (scanAll trC3 100) = reqCount (strOf "bob") trC3) ∧
    (alookup (strOf "bob") (scanAll trC3 NEGATIVE_TTL).cache = none ∧
      reqCount (strOf "bob") (scanAll trC3 NEGATIVE_TTL) =
        reqCount (strOf "bob") trC3 + 1) := by
  have h1 := claim_C4 trC3 (strOf "bob") 0 100 (by decide)
  have h2 := claim_C4 trC3 (strOf "bob") 0 NEGATIVE_TTL (by decide)
  exact ⟨h1.1 (by decide), h2.2 (by decide) (by decide) (by decide)⟩

/-- Claim C5: in every reachable state no element carries an avatar whose
`data-nick` is a service-account name, and the scanner returns the state
unchanged on any element whose name is a service nick, regardless of the
cache and queue contents. -/
theorem claim_C5 (st : AvState) (h : Reachable st) :
    (∀ el ∈ st.els, ∀ a ∈ el.avatars, isServiceNick a.nick = false) ∧
    (∀ (i now : Nat) (el : El) (nick : Str), st.els[i]? = some el →
      el.nick = some nick → isServiceNick nick = true →
      processUserElement st now i = st) := by
  refine ⟨(reachable_serviceFree st h).2.2, ?_⟩
  intro i now el nick hel hnick hsvc
  obtain ⟨nopt, ctx, avs⟩ := el
  cases hnick
  unfold processUserElement
  rw [hel]
  dsimp only
  by_cases h1 : nick = []
  · rw [if_pos h1]
  · rw [if_neg h1, if_pos hsvc]

/-- Witness for C5 at a reachable state containing a `ChanServ`
element: no avatars exist for it, and scanning it is a no-op. -/
theorem claim_C5_witness :
    (∀ el ∈ trD1.els, ∀ a ∈ el.avatars, isServiceNick a.nick = false) ∧
    processUserElement trD1 0 0 = trD1 := by
  have hreach : Reachable trD1 :=
    Reachable.step Reachable.init
      (AvStep.addEl initState (some (strOf "ChanServ")) Ctx.nicklist)
  have h := claim_C5 trD1 hreach
  exact ⟨h.1, h.2 0 0 ⟨some (strOf "ChanServ"), Ctx.nicklist, []⟩ (strOf "ChanServ")
    (by decide) rfl (by decide)⟩

/-- Claim C6: reconciliation keeps at most one avatar per injection target
in every reachable state; injecting when the present avatar already
records the nickname changes nothing; injecting over a stale avatar
removes it (the result is the new avatar followed by the old list's tail);
and injection preserves the at-most-one bound on any element. -/
theorem claim_C6 (st : AvState) (h : Reachable st) (el : El) (nick url : Str) :
    (∀ e ∈ st.els, e.avatars.length ≤ 1) ∧
    (∀ a, el.avatars.head? = some a → a.nick = nick →
      injectAvatarEl el nick url = el) ∧
    (∀ a, el.avatars.head? = some a → a.nick ≠ nick → el.ctx ≠ Ctx.other →
      (injectAvatarEl el nick url).avatars = ⟨nick, url⟩ :: el.avatars.tail) ∧
    (el.avatars.length ≤ 1 → (injectAvatarEl el nick url).avatars.length ≤ 1) := by
  refine ⟨reachable_atMostOne st h, ?_, ?_, ?_⟩
  · intro a hhead hnick
    unfold injectAvatarEl
    split
    · rfl
    · rw [hhead]
      dsimp only
      rw [if_pos hnick]
  · intro a hhead hnick hctx
    unfold injectAvatarEl
    rw [if_neg hctx, hhead]
    dsimp only
    rw [if_neg hnick]
  · exact injectAvatarEl_avatars_le el nick url

/-- Witness for C6: at the reachable state `trD2`, with a concrete element
holding one `alice` avatar, re-injection for `alice` is the identity and
injection for `bob` replaces the stale avatar. -/
theorem claim_C6_witness :
    (∀ e ∈ trD2.els, e.avatars.length ≤ 1) ∧
    injectAvatarEl ⟨some (strOf "alice"), Ctx.nicklist, [⟨strOf "alice", strOf "/a.png"⟩]⟩
      (strOf "alice") (strOf "/b.png") =
      ⟨some (strOf "alice"), Ctx.nicklist, [⟨strOf "alice", strOf "/a.png"⟩]⟩ ∧
    (injectAvatarEl ⟨some (strOf "bob"), Ctx.nicklist, [⟨strOf "alice", strOf "/a.png"⟩]⟩
        (strOf "bob") (strOf "/b.png")).avatars =
      [⟨strOf "bob", strOf "/b.png"⟩] := by
  have hreach : Reachable trD2 :=
    Reachable.step Reachable.init
      (AvStep.addEl initState (some (strOf "alice")) Ctx.nicklist)
  have h1 := claim_C6 trD2 hreach
    ⟨some (strOf "alice"), Ctx.nicklist, [⟨strOf "alice", strOf "/a.png"⟩]⟩
    (strOf "alice") (strOf "/b.png")
  have h2 := claim_C6 trD2 hreach
    ⟨some (strOf "bob"), Ctx.nicklist, [⟨strOf "alice", strOf "/a.png"⟩]⟩
    (strOf "bob") (strOf "/b.png")
  refine ⟨h1.1, h1.2.1 ⟨strOf "alice", strOf "/a.png"⟩ rfl rfl, ?_⟩
  have h3 := h2.2.2.1 ⟨strOf "alice", strOf "/a.png"⟩ rfl (by decide) (by decide)
  rw [h3]
  rfl

/- ── JSON serializer round trip ─────────────────────────────────────── -/

theorem parseStrGo_enc (s : Str) (rest : List Char) :
    parseStrGo (escStr s ++ '"' :: rest) = some (s, rest) := by
  induction s with
  | nil =>
    show parseStrGo ('"' :: rest) = some ([], rest)
    rw [parseStrGo.eq_def]
    norm_num
  | cons c s2 ih =>
    show parseStrGo ((escChar c ++ escStr s2) ++ '"' :: rest) = some (c :: s2, rest)
    rw [List.append_assoc]
    by_cases h1 : c = '"'
    · subst h1
      show parseStrGo ('\\' :: '"' :: (escStr s2 ++ '"' :: rest)) = _
      rw [parseStrGo.eq_def]
      simp [unescChar, ih]
    · by_cases h2 : c = '\\'
      · subst h2
        show parseStrGo ('\\' :: '\\' :: (escStr s2 ++ '"' :: rest)) = _
        rw [parseStrGo.eq_def]
        simp [unescChar, ih]
      · have he : escChar c = [c] := by
          unfold escChar
          rw [if_neg h1, if_neg h2]
        rw [he, List.singleton_append, parseStrGo.eq_def]
        simp [h1, h2, ih]

theorem parseVal_enc (v : JVal) (rest : List Char) :
    parseVal (encVal v ++ rest) = some (v, rest) := by
  cases v with
  | jb b =>
    cases b
    · rfl
    · rfl
  | js s =>
    have hform : encVal (JVal.js s) ++ rest = '"' :: (escStr s ++ '"' :: rest) := by
      show ('"' :: (escStr s ++ ['"'])) ++ rest = _
      simp [List.append_assoc]
    rw [hform]
    have h1 : parseVal ('"' :: (escStr s ++ '"' :: rest)) =
        (parseStrGo (escStr s ++ '"' :: rest)).map (fun p => (JVal.js p.1, p.2)) := rfl
    rw [h1, parseStrGo_enc]
    rfl

theorem parseMembers_last (fuel : Nat) (k : Str) (v : JVal) (rest : List Char) :
    parseMembers (fuel + 1)
      ('"' :: (escStr k ++ '"' :: (':' :: (encVal v ++ '}' :: rest)))) =
      some ([(k, v)], rest) := by
  simp only [parseMembers]
  rw [parseStrGo_enc]
  simp [parseVal_enc]

theorem parseMembers_cons (fuel : Nat) (k : Str) (v : JVal) (t : List Char)
    (ps3 : List (Str × JVal)) (r5 : List Char)
    (h : parseMembers fuel t = some (ps3, r5)) :
    parseMembers (fuel + 1)
      ('"' :: (escStr k ++ '"' :: (':' :: (encVal v ++ ',' :: t)))) =
      some ((k, v) :: ps3, r5) := by
  simp only [parseMembers]
  rw [parseStrGo_enc]
  simp [parseVal_enc, h]

theorem parseMembers_enc (ps : List (Str × JVal)) (hne : ps ≠ []) :
    ∀ (fuel : Nat), ps.length ≤ fuel →
    ∀ rest, parseMembers fuel (encBody ps ++ '}' :: rest) = some (ps, rest) := by
  induction ps with
  | nil => exact absurd rfl hne
  | cons p ps2 ih =>
    intro fuel hfuel rest
    obtain ⟨fuel2, rfl⟩ : ∃ f2, fuel = f2 + 1 := by
      cases fuel
      · exact absurd hfuel (by simp)
      · exact ⟨_, rfl⟩
    obtain ⟨k, v⟩ := p
    cases hps2 : ps2 with
    | nil =>
      have hform : encBody [(k, v)] ++ '}' :: rest =
          '"' :: (escStr k ++ '"' :: (':' :: (encVal v ++ '}' :: rest))) := by
        show (encStr k ++ ':' :: encVal v) ++ '}' :: rest = _
        show (('"' :: (escStr k ++ ['"'])) ++ ':' :: encVal v) ++ '}' :: rest = _
        simp [List.append_assoc]
      rw [hform, parseMembers_last]
    | cons q qs =>
      rw [← hps2]
      have hne2 : ps2 ≠ [] := by rw [hps2]; exact List.cons_ne_nil q qs
      have hbody : encBody ((k, v) :: ps2) = encPair (k, v) ++ ',' :: encBody ps2 := by
        rw [hps2]
        rfl
      have hform : encBody ((k, v) :: ps2) ++ '}' :: rest =
          '"' :: (escStr k ++ '"' ::
            (':' :: (encVal v ++ ',' :: (encBody ps2 ++ '}' :: rest)))) := by
        rw [hbody]
        show ((encStr k ++ ':' :: encVal v) ++ ',' :: encBody ps2) ++ '}' :: rest = _
        show ((('"' :: (escStr k ++ ['"'])) ++ ':' :: encVal v) ++ ',' :: encBody ps2) ++
          '}' :: rest = _
        simp [List.append_assoc]
      rw [hform]
      have hlen : ps2.length ≤ fuel2 := by
        simp only [List.length_cons] at hfuel
        omega
      exact parseMembers_cons fuel2 k v (encBody ps2 ++ '}' :: rest) ps2 rest
        (ih hne2 fuel2 hlen rest)

theorem encPair_head (p : Str × JVal) : ∃ t, encPair p = '"' :: t := by
  show ∃ t, encStr p.1 ++ ':' :: encVal p.2 = '"' :: t
  exact ⟨_, rfl⟩

theorem encBody_length_ge (ps : List (Str × JVal)) :
    ps.length ≤ (encBody ps).length := by
  induction ps with
  | nil => exact Nat.le_refl 0
  | cons p ps2 ih =>
    cases hps2 : ps2 with
    | nil =>
      show 1 ≤ (encPair p).length
      obtain ⟨t, ht⟩ := encPair_head p
      rw [ht]
      simp
    | cons q qs =>
      rw [← hps2]
      have hbody : encBody (p :: ps2) = encPair p ++ ',' :: encBody ps2 := by
        rw [hps2]
        rfl
      rw [hbody]
      obtain ⟨t, ht⟩ := encPair_head p
      rw [hps2] at ih
      rw [← hps2] at ih
      simp only [List.length_cons, List.length_append, ht]
      omega

theorem parseObj_enc (ps : List (Str × JVal)) : parseObj (encObj ps) = some ps := by
  cases hps : ps with
  | nil => rfl
  | cons p ps2 =>
    rw [← hps]
    have hne : ps ≠ [] := by rw [hps]; exact List.cons_ne_nil p ps2
    have hhead : ∃ t, encBody ps = '"' :: t := by
      rw [hps]
      cases ps2 with
      | nil => exact encPair_head p
      | cons q qs =>
        obtain ⟨t, ht⟩ := encPair_head p
        refine ⟨t ++ ',' :: encBody (q :: qs), ?_⟩
        show encPair p ++ ',' :: encBody (q :: qs) = _
        rw [ht]
        rfl
    obtain ⟨t, ht⟩ := hhead
    show parseObj ('{' :: (encBody ps ++ ['}'])) = some ps
    have hin : encBody ps ++ ['}'] = encBody ps ++ '}' :: [] := rfl
    have hlen : ps.length ≤ (encBody ps ++ '}' :: []).length + 1 := by
      have h1 := encBody_length_ge ps
      simp only [List.length_append, List.length_cons]
      omega
    have hcons : ∃ t2, encBody ps ++ '}' :: [] = '"' :: t2 := by
      rw [ht]
      exact ⟨_, rfl⟩
    obtain ⟨t2, ht2⟩ := hcons
    rw [hin]
    rw [parseObj.eq_def, ht2]
    dsimp only
    rw [if_pos rfl]
    rw [if_neg (by decide)]
    rw [← ht2]
    rw [parseMembers_enc ps hne ((encBody ps ++ ['}']).length + 1) hlen []]
    rfl


/- ── Object.assign lemmas ───────────────────────────────────────────── -/

theorem alookupLast_not_mem (k : Str) (l : List (Str × α))
    (h : k ∉ l.map Prod.fst) : alookupLast k l = none := by
  induction l with
  | nil => rfl
  | cons p r ih =>
    obtain ⟨a, b⟩ := p
    have h1 : k ∉ r.map Prod.fst := fun hm => h (List.mem_cons_of_mem _ hm)
    have h2 : a ≠ k := by
      intro he
      apply h
      rw [List.map_cons, he]
      exact List.mem_cons_self k _
    show (match alookupLast k r with
      | some v2 => some v2
      | none => if a = k then some b else none) = none
    rw [ih h1, if_neg h2]

theorem assign_base_id (d s : List (Str × JVal))
    (hkeys : s.map Prod.fst = d.map Prod.fst) (hnodup : (d.map Prod.fst).Nodup) :
    d.map (fun p => (p.1, (alookupLast p.1 s).getD p.2)) = s := by
  induction d generalizing s with
  | nil =>
    cases s with
    | nil => rfl
    | cons q qs => exact absurd hkeys (by simp)
  | cons p d2 ih =>
    cases s with
    | nil => exact absurd hkeys (by simp)
    | cons q qs =>
      obtain ⟨pk, pv⟩ := p
      obtain ⟨qk, qv⟩ := q
      simp only [List.map_cons, List.cons.injEq] at hkeys
      obtain ⟨hk1, hk2⟩ := hkeys
      simp only [List.map_cons, List.nodup_cons] at hnodup
      obtain ⟨hnotin, hnodup2⟩ := hnodup
      have hq : alookupLast pk ((qk, qv) :: qs) = some qv := by
        simp only [alookupLast]
        rw [alookupLast_not_mem pk qs (by rw [hk2]; exact hnotin), if_pos hk1]
      have hrest : ∀ p2 ∈ d2, alookupLast p2.1 ((qk, qv) :: qs) = alookupLast p2.1 qs := by
        intro p2 hp2
        simp only [alookupLast]
        cases hl : alookupLast p2.1 qs with
        | some v2 => rfl
        | none =>
          have hne : qk ≠ p2.1 := by
            rw [hk1]
            intro he
            exact hnotin (he ▸ List.mem_map_of_mem Prod.fst hp2)
          rw [if_neg hne]
      rw [List.map_cons]
      congr 1
      · show (pk, (alookupLast pk ((qk, qv) :: qs)).getD pv) = (qk, qv)
        rw [hq, hk1]
        rfl
      · rw [List.map_congr_left (fun p2 hp2 => by rw [hrest p2 hp2]), ih qs hk2 hnodup2]

theorem filter_not_in_defaults (d s : List (Str × JVal))
    (h : ∀ q ∈ s, q.1 ∈ d.map Prod.fst) :
    s.filter (fun q => decide (¬ d.any (fun p => decide (p.1 = q.1)))) = [] := by
  rw [List.filter_eq_nil_iff]
  intro q hq
  have h1 : d.any (fun p => decide (p.1 = q.1)) = true := by
    obtain ⟨p, hp, hpq⟩ := List.mem_map.mp (h q hq)
    exact List.any_eq_true.mpr ⟨p, hp, by simp [hpq]⟩
  simp [h1]

theorem DEFAULTS_keys_nodup : (DEFAULTS.map Prod.fst).Nodup := by decide

theorem assignDefaults_id (s : List (Str × JVal))
    (hkeys : s.map Prod.fst = DEFAULTS.map Prod.fst) : assignDefaults s = s := by
  unfold assignDefaults
  rw [assign_base_id DEFAULTS s hkeys DEFAULTS_keys_nodup,
    filter_not_in_defaults DEFAULTS s
      (fun q hq => by rw [← hkeys]; exact List.mem_map_of_mem Prod.fst hq),
    List.append_nil]

theorem assignDefaults_nil : assignDefaults [] = DEFAULTS := by
  unfold assignDefaults
  have h1 : DEFAULTS.map (fun p => (p.1, (alookupLast p.1 ([] : List (Str × JVal))).getD p.2)) =
      DEFAULTS.map (fun p => (p.1, p.2)) := rfl
  rw [h1]
  have h2 : DEFAULTS.map (fun p => (p.1, p.2)) = DEFAULTS := by
    apply List.map_congr_left ?_ |>.trans (List.map_id DEFAULTS)
    intro p _
    rfl
  rw [h2]
  rfl

theorem alookup_append_left (k : Str) (l1 l2 : List (Str × α)) (v : α)
    (h : alookup k l1 = some v) : alookup k (l1 ++ l2) = some v := by
  induction l1 with
  | nil => exact absurd h (by simp [alookup])
  | cons p r ih =>
    obtain ⟨a, b⟩ := p
    show (if a = k then some b else alookup k (r ++ l2)) = some v
    by_cases ha : a = k
    · rw [if_pos ha]
      rw [show alookup k ((a, b) :: r) = if a = k then some b else alookup k r from rfl,
        if_pos ha] at h
      exact h
    · rw [if_neg ha]
      rw [show alookup k ((a, b) :: r) = if a = k then some b else alookup k r from rfl,
        if_neg ha] at h
      exact ih h

theorem assign_base_lookup (d saved : List (Str × JVal)) (k : Str) (v : JVal)
    (hmem : (k, v) ∈ d) (hnodup : (d.map Prod.fst).Nodup) :
    alookup k (d.map (fun p => (p.1, (alookupLast p.1 saved).getD p.2))) =
      some ((alookupLast k saved).getD v) := by
  induction d with
  | nil => exact absurd hmem (List.not_mem_nil _)
  | cons p d2 ih =>
    simp only [List.map_cons, List.nodup_cons] at hnodup
    obtain ⟨hnotin, hnodup2⟩ := hnodup
    rcases List.mem_cons.mp hmem with h1 | h1
    · rw [← h1]
      show (if k = k then some ((alookupLast k saved).getD v) else _) = _
      rw [if_pos rfl]
    · have hne : p.1 ≠ k := by
        intro he
        exact hnotin (he ▸ List.mem_map_of_mem Prod.fst h1)
      show (if p.1 = k then some ((alookupLast p.1 saved).getD p.2) else
        alookup k (d2.map (fun p => (p.1, (alookupLast p.1 saved).getD p.2)))) = _
      rw [if_neg hne]
      exact ih h1 hnodup2

theorem assignDefaults_lookup (saved : List (Str × JVal)) (k : Str) (v : JVal)
    (hmem : (k, v) ∈ DEFAULTS) :
    alookup k (assignDefaults saved) = some ((alookupLast k saved).getD v) := by
  unfold assignDefaults
  exact alookup_append_left k _ _ _
    (assign_base_lookup DEFAULTS saved k v hmem DEFAULTS_keys_nodup)

/- ── load lemmas ────────────────────────────────────────────────────── -/

theorem load_encObj (s : List (Str × JVal)) (sty : Option Str)
    (hkeys : s.map Prod.fst = DEFAULTS.map Prod.fst) :
    load (some (encObj s)) sty = s := by
  unfold load
  dsimp only
  rw [if_neg (by show ¬ '{' :: (encBody s ++ ['}']) = []; simp), parseObj_enc]
  exact assignDefaults_id s hkeys

theorem load_eq_assign (storage styleCSS : Option Str) :
    load storage styleCSS = assignDefaults (loadRecovered storage styleCSS) := by
  cases storage with
  | none =>
    unfold load loadRecovered
    dsimp only
    cases h : loadFromUserStyles styleCSS with
    | none => rfl
    | some fs => rfl
  | some raw =>
    unfold load loadRecovered
    dsimp only
    by_cases hr : raw = []
    · rw [if_pos hr, if_pos hr]
      cases h : loadFromUserStyles styleCSS with
      | none => rfl
      | some fs => rfl
    · rw [if_neg hr, if_neg hr]
      cases h : parseObj raw with
      | none => rfl
      | some saved => rfl

/- ── Claim theorems: color settings persistence and validation ──────── -/

/-- Claim C8: saving a settings mapping over the documented keys and
loading it back in a fresh session (any state of the synced style element)
reproduces the identical mapping, and the Reset to Defaults handler leaves
the in-memory settings, the applied overrides, and the persisted value all
exactly at the documented defaults. -/
theorem claim_C8 (s : List (Str × JVal)) (sty : Option Str) (p : Panel)
    (hkeys : s.map Prod.fst = DEFAULTS.map Prod.fst) :
    load (some (encObj s)) sty = s ∧
    (resetHandler p).settings = DEFAULTS ∧
    (resetHandler p).applied = DEFAULTS ∧
    load (resetHandler p).storage sty = DEFAULTS := by
  refine ⟨load_encObj s sty hkeys, rfl, rfl, ?_⟩
  show load (some (encObj DEFAULTS)) sty = DEFAULTS
  exact load_encObj DEFAULTS sty rfl

/-- Witness for C8 with a mapping that differs from the defaults in the
`nickBold` toggle, and an arbitrary concrete panel. -/
theorem claim_C8_witness :
    load (some (encObj (asetKeep (strOf "nickBold") (JVal.jb true) DEFAULTS))) none =
      asetKeep (strOf "nickBold") (JVal.jb true) DEFAULTS ∧
    (resetHandler ⟨DEFAULTS, none, DEFAULTS⟩).settings = DEFAULTS ∧
    (resetHandler ⟨DEFAULTS, none, DEFAULTS⟩).applied = DEFAULTS ∧
    load (resetHandler ⟨DEFAULTS, none, DEFAULTS⟩).storage none = DEFAULTS :=
  claim_C8 (asetKeep (strOf "nickBold") (JVal.jb true) DEFAULTS) none
    ⟨DEFAULTS, none, DEFAULTS⟩ (by decide)

/-- Counterexample to C9 as stated: the entered string `" #aabbcc "` does
not match the strict pattern `^#[0-9a-fA-F]{6}$`, yet the handler changes
the setting (the code trims the input before testing), so "otherwise no
setting changes" fails for the string as entered. -/
theorem claim_C9_counterexample :
    matchesHexPattern (strOf " #aabbcc ") = false ∧
    (hexChangeHandler ⟨[(strOf "linkColor", JVal.js (strOf "#5aa5ff"))], none, []⟩
        (strOf "linkColor") (strOf " #aabbcc ")).1.settings ≠
      [(strOf "linkColor", JVal.js (strOf "#5aa5ff"))] := by
  constructor
  · decide
  · decide

/-- Claim C9 (amended): if the whitespace-trimmed input matches the strict
six-digit hex pattern, the setting is updated to the trimmed value,
persisted (the serialized settings land in the storage slot), and
re-applied; otherwise the settings, storage and applied state are
unchanged and the field reverts to the stored value. -/
theorem claim_C9 (p : Panel) (key : Str) (input : Str) :
    (matchesHexPattern (trimStr input) = true →
      hexChangeHandler p key input =
        (⟨asetKeep key (JVal.js (trimStr input)) p.settings,
          some (encObj (asetKeep key (JVal.js (trimStr input)) p.settings)),
          asetKeep key (JVal.js (trimStr input)) p.settings⟩, input)) ∧
    (matchesHexPattern (trimStr input) = false →
      hexChangeHandler p key input =
        (p, jvalDisplay ((alookupLast key p.settings).getD (JVal.js [])))) := by
  constructor
  · intro h
    unfold hexChangeHandler
    rw [if_pos h]
  · intro h
    unfold hexChangeHandler
    rw [if_neg (by simp [h])]

/-- Witness for C9: a valid hex string is written through and an invalid
one reverts the field to the stored color. -/
theorem claim_C9_witness :
    hexChangeHandler ⟨[(strOf "linkColor", JVal.js (strOf "#5aa5ff"))], none, []⟩
        (strOf "linkColor") (strOf "#a1b2c3") =
      (⟨asetKeep (strOf "linkColor") (JVal.js (trimStr (strOf "#a1b2c3")))
          [(strOf "linkColor", JVal.js (strOf "#5aa5ff"))],
        some (encObj (asetKeep (strOf "linkColor") (JVal.js (trimStr (strOf "#a1b2c3")))
          [(strOf "linkColor", JVal.js (strOf "#5aa5ff"))])),
        asetKeep (strOf "linkColor") (JVal.js (trimStr (strOf "#a1b2c3")))
          [(strOf "linkColor", JVal.js (strOf "#5aa5ff"))]⟩, strOf "#a1b2c3") ∧
    hexChangeHandler ⟨[(strOf "linkColor", JVal.js (strOf "#5aa5ff"))], none, []⟩
        (strOf "linkColor") (strOf "red") =
      (⟨[(strOf "linkColor", JVal.js (strOf "#5aa5ff"))], none, []⟩,
        jvalDisplay ((alookupLast (strOf "linkColor")
          [(strOf "linkColor", JVal.js (strOf "#5aa5ff"))]).getD (JVal.js []))) := by
  have h1 := claim_C9 ⟨[(strOf "linkColor", JVal.js (strOf "#5aa5ff"))], none, []⟩
    (strOf "linkColor") (strOf "#a1b2c3")
  have h2 := claim_C9 ⟨[(strOf "linkColor", JVal.js (strOf "#5aa5ff"))], none, []⟩
    (strOf "linkColor") (strOf "red")
  exact ⟨h1.1 (by decide), h2.2 (by decide)⟩

/-- Claim C10: for every persisted-storage content and every state of the
synced style element, the loader returns a mapping that contains every
documented default key — holding the recovered value when the recovered
data has the key and the default otherwise.  (`load` is a total function
of the embedding: every failure branch of the original code is caught and
mapped to defaults.) -/
theorem claim_C10 (storage styleCSS : Option Str) (k : Str) (d : JVal)
    (hmem : (k, d) ∈ DEFAULTS) :
    alookup k (load storage styleCSS) =
      some ((alookupLast k (loadRecovered storage styleCSS)).getD d) := by
  rw [load_eq_assign]
  exact assignDefaults_lookup _ k d hmem

/-- Witness for C10 at malformed persisted content: the loader yields the
default link color. -/
theorem claim_C10_witness :
    alookup (strOf "linkColor") (load (some (strOf "not json")) none) =
      some ((alookupLast (strOf "linkColor")
        (loadRecovered (some (strOf "not json")) none)).getD
          (JVal.js (strOf "#5aa5ff"))) :=
  claim_C10 (some (strOf "not json")) none (strOf "linkColor")
    (JVal.js (strOf "#5aa5ff")) (by decide)


/- ── Tag-block lemmas for the sync round trip ───────────────────────── -/

theorem isPrefixOf_append_self (l t : List Char) : l.isPrefixOf (l ++ t) = true := by
  induction l with
  | nil => cases t <;> rfl
  | cons c r ih =>
    show (c == c && List.isPrefixOf r (r ++ t)) = true
    rw [ih, beq_self_eq_true]
    rfl

theorem star_not_mem_escChar (c : Char) (h : c ≠ '*') : '*' ∉ escChar c := by
  unfold escChar
  by_cases h1 : c = '"'
  · rw [if_pos h1]; decide
  · rw [if_neg h1]
    by_cases h2 : c = '\\'
    · rw [if_pos h2]; decide
    · rw [if_neg h2]
      intro hmem
      rw [List.mem_singleton] at hmem
      exact h hmem.symm

theorem star_not_mem_escStr (s : Str) (h : '*' ∉ s) : '*' ∉ escStr s := by
  induction s with
  | nil => simp [escStr]
  | cons c r ih =>
    simp only [escStr]
    intro hmem
    rcases List.mem_append.mp hmem with h1 | h2
    · exact star_not_mem_escChar c (fun he => h (he ▸ List.mem_cons_self c r)) h1
    · exact ih (fun hr => h (List.mem_cons_of_mem c hr)) h2

theorem star_not_mem_encStr (s : Str) (h : '*' ∉ s) : '*' ∉ encStr s := by
  unfold encStr
  intro hmem
  rcases List.mem_cons.mp hmem with h1 | h2
  · exact absurd h1 (by decide)
  · rcases List.mem_append.mp h2 with h3 | h4
    · exact star_not_mem_escStr s h h3
    · exact absurd h4 (by decide)

theorem star_not_mem_encVal (v : JVal) (h : jvalNoStar v = true) : '*' ∉ encVal v := by
  cases v with
  | jb b => cases b <;> decide
  | js s => exact star_not_mem_encStr s (of_decide_eq_true h)

theorem star_not_mem_encPair (p : Str × JVal) (h1 : '*' ∉ p.1)
    (h2 : jvalNoStar p.2 = true) : '*' ∉ encPair p := by
  unfold encPair
  intro hmem
  rcases List.mem_append.mp hmem with ha | hb
  · exact star_not_mem_encStr p.1 h1 ha
  · rcases List.mem_cons.mp hb with hc | hd
    · exact absurd hc (by decide)
    · exact star_not_mem_encVal p.2 h2 hd

theorem star_not_mem_encBody (ps : List (Str × JVal)) :
    settingsNoStar ps → '*' ∉ encBody ps := by
  induction ps with
  | nil => intro _; simp [encBody]
  | cons p r ih =>
    intro hs
    cases r with
    | nil =>
      simp only [encBody]
      exact star_not_mem_encPair p (hs p (List.mem_cons_self p [])).1
        (hs p (List.mem_cons_self p [])).2
    | cons q t =>
      simp only [encBody]
      intro hmem
      rcases List.mem_append.mp hmem with ha | hb
      · exact star_not_mem_encPair p (hs p (List.mem_cons_self p _)).1
          (hs p (List.mem_cons_self p _)).2 ha
      · rcases List.mem_cons.mp hb with hc | hd
        · exact absurd hc (by decide)
        · exact ih (fun x hx => hs x (List.mem_cons_of_mem p hx)) hd

theorem star_not_mem_encObj (ps : List (Str × JVal)) (hs : settingsNoStar ps) :
    ∀ c ∈ encObj ps, c ≠ '*' := by
  intro c hc
  unfold encObj at hc
  rcases List.mem_cons.mp hc with h1 | h2
  · rw [h1]; decide
  · rcases List.mem_append.mp h2 with h3 | h4
    · intro he
      rw [he] at h3
      exact star_not_mem_encBody ps hs h3
    · rw [List.mem_singleton] at h4
      rw [h4]; decide

theorem dropTrailingWs_encObj_sp (ps : List (Str × JVal)) :
    dropTrailingWs (encObj ps ++ [' ']) = encObj ps := by
  unfold dropTrailingWs
  rw [List.reverse_append]
  simp only [List.reverse_singleton, List.singleton_append]
  rw [List.dropWhile_cons, if_pos (by decide : isWs ' ' = true)]
  have hrev : (encObj ps).reverse = '}' :: ((encBody ps).reverse ++ ['{']) := by
    show ('{' :: (encBody ps ++ ['}'])).reverse = _
    rw [List.reverse_cons, List.reverse_append]
    rfl
  rw [hrev, List.dropWhile_cons, if_neg (by decide : ¬ isWs '}' = true), ← hrev,
    List.reverse_reverse]

theorem collectClose_append (body rest : List Char) (h : ∀ c ∈ body, c ≠ '*') :
    collectClose (body ++ '*' :: '/' :: rest) = some (body, rest) := by
  induction body with
  | nil => rfl
  | cons c b ih =>
    rw [List.cons_append]
    simp only [collectClose]
    rw [if_neg (h c (List.mem_cons_self c b))]
    rw [ih (fun x hx => h x (List.mem_cons_of_mem c hx))]
    rfl

theorem matchTagAt_build (s : List (Str × JVal)) (tail : Str) (hs : settingsNoStar s) :
    matchTagAt ('/' :: '*' ::
        (strOf " IRC4FUN_COLORS: " ++ (encObj s ++ (strOf " */" ++ tail)))) =
      some (encObj s, tail) := by
  have hstar : ∀ c ∈ encObj s ++ [' '], c ≠ '*' := by
    intro c hc
    rcases List.mem_append.mp hc with h1 | h2
    · exact star_not_mem_encObj s hs c h1
    · rw [List.mem_singleton] at h2
      rw [h2]; decide
  have hd1 : List.dropWhile isWs
      (strOf " IRC4FUN_COLORS: " ++ (encObj s ++ (strOf " */" ++ tail))) =
      tagLabel ++ (' ' :: (encObj s ++ (strOf " */" ++ tail))) := by
    rw [show strOf " IRC4FUN_COLORS: " ++ (encObj s ++ (strOf " */" ++ tail)) =
        ' ' :: ('I' :: (strOf "RC4FUN_COLORS: " ++ (encObj s ++ (strOf " */" ++ tail))))
      from rfl]
    rw [List.dropWhile_cons, if_pos (by decide : isWs ' ' = true)]
    rw [List.dropWhile_cons, if_neg (by decide : ¬ isWs 'I' = true)]
    rfl
  have hsplit : ('{' : Char) :: ((encBody s ++ ['}']) ++ (strOf " */" ++ tail)) =
      (encObj s ++ [' ']) ++ ('*' :: '/' :: tail) := by
    show '{' :: ((encBody s ++ ['}']) ++ (' ' :: '*' :: '/' :: tail)) = _
    simp [encObj, List.append_assoc]
  simp only [matchTagAt, reduceIte]
  rw [hd1, if_pos (isPrefixOf_append_self tagLabel
    (' ' :: (encObj s ++ (strOf " */" ++ tail))))]
  rw [List.drop_left]
  rw [List.dropWhile_cons, if_pos (by decide : isWs ' ' = true)]
  rw [show encObj s ++ (strOf " */" ++ tail) =
      '{' :: ((encBody s ++ ['}']) ++ (strOf " */" ++ tail)) from rfl]
  rw [List.dropWhile_cons, if_neg (by decide : ¬ isWs '{' = true)]
  rw [hsplit, collectClose_append (encObj s ++ [' ']) tail hstar]
  show some (dropTrailingWs (encObj s ++ [' ']), tail) = some (encObj s, tail)
  rw [dropTrailingWs_encObj_sp]


theorem findTag_build (s : List (Str × JVal)) (tail : Str) (hs : settingsNoStar s) :
    findTag ('/' :: '*' ::
        (strOf " IRC4FUN_COLORS: " ++ (encObj s ++ (strOf " */" ++ tail)))) =
      some (encObj s, tail) := by
  simp only [findTag]
  rw [matchTagAt_build s tail hs]

theorem buildSyncCSS_form (s : List (Str × JVal)) (existing : Str) :
    buildSyncCSS s existing =
      '/' :: '*' :: (strOf " IRC4FUN_COLORS: " ++ (encObj s ++ (strOf " */" ++
        (if trimStr (stripTag existing) = [] then []
         else '\n' :: trimStr (stripTag existing))))) := by
  simp only [buildSyncCSS]
  by_cases h : trimStr (stripTag existing) = []
  · rw [if_pos h, if_pos h]
    simp only [List.append_assoc]
    rfl
  · rw [if_neg h, if_neg h]
    simp only [List.append_assoc]
    rfl

theorem matchTagAt_cons_nonslash (c : Char) (h : ¬ c = '/') (l : List Char) :
    matchTagAt (c :: l) = none := by
  cases l with
  | nil => rfl
  | cons c2 r =>
    simp only [matchTagAt]
    rw [if_neg h]

theorem findTag_cons_nonslash (c : Char) (h : ¬ c = '/') (l : List Char) :
    findTag (c :: l) = findTag l := by
  simp only [findTag]
  rw [matchTagAt_cons_nonslash c h l]

theorem countTagAux_succ (f : Nat) (x : List Char) (cap rest : Str)
    (h : findTag x = some (cap, rest)) :
    countTagAux (f + 1) x = 1 + countTagAux f rest := by
  simp only [countTagAux]
  rw [h]

theorem countTagAux_of_none (f : Nat) (x : List Char) (h : findTag x = none) :
    countTagAux f x = 0 := by
  cases f with
  | zero => rfl
  | succ f =>
    simp only [countTagAux]
    rw [h]


/- ── Claim theorems: sync round trip ────────────────────────────────── -/

/-- Counterexample to C7 as stated: when the pre-existing style text
already holds two tagged blocks, the non-global strip removes only the
first, so the produced text holds two tagged blocks rather than one; and
a settings mapping whose string value contains the comment-closing
sequence does not survive the round trip at all. -/
theorem claim_C7_counterexample :
    countTagBlocks (buildSyncCSS [(strOf "a", JVal.jb true)]
        (strOf "/* IRC4FUN_COLORS: {} */ x /* IRC4FUN_COLORS: {} */")) = 2 ∧
    parseTagFromCSS (buildSyncCSS [(strOf "a", JVal.js (strOf "*/"))] []) ≠
      some [(strOf "a", JVal.js (strOf "*/"))] := by
  constructor
  · decide
  · decide

/-- Claim C7 (amended): for a settings mapping whose keys and string
values avoid the `*` character (all documented settings do) and a
pre-existing style text whose stripped remainder holds no residual
tagged block, parsing the text produced by `buildSyncCSS` with
`parseTagFromCSS` yields the original mapping, and the produced text
contains exactly one tagged block. -/
theorem claim_C7 (s : List (Str × JVal)) (existing : Str) (hs : settingsNoStar s)
    (hclean : findTag (trimStr (stripTag existing)) = none) :
    parseTagFromCSS (buildSyncCSS s existing) = some s ∧
    countTagBlocks (buildSyncCSS s existing) = 1 := by
  constructor
  · unfold parseTagFromCSS
    rw [buildSyncCSS_form, findTag_build s _ hs]
    show parseObj (encObj s) = some s
    exact parseObj_enc s
  · unfold countTagBlocks
    rw [buildSyncCSS_form, List.length_cons, List.length_cons,
      countTagAux_succ _ _ _ _ (findTag_build s _ hs)]
    by_cases h : trimStr (stripTag existing) = []
    · rw [if_pos h, countTagAux_of_none _ [] rfl]
    · rw [if_neg h, countTagAux_of_none _ _
        (by rw [findTag_cons_nonslash _ (by decide) _]; exact hclean)]

/-- Witness for C7: embedding the documented defaults over a plain style
text round-trips and yields exactly one tagged block. -/
theorem claim_C7_witness :
    parseTagFromCSS (buildSyncCSS DEFAULTS (strOf "a")) = some DEFAULTS ∧
    countTagBlocks (buildSyncCSS DEFAULTS (strOf "a")) = 1 :=
  claim_C7 DEFAULTS (strOf "a") (by unfold settingsNoStar; decide) (by decide)

end TL
